import Mathlib

/-!
# Verification of the yat-rs task-tree core

Shallow embedding of the `yat` hierarchical todo-list manager (sources:
`src/todo.rs`, `src/lib.rs`).  Task text is modelled as `List Char` (Rust
`String` is UTF-8; byte-level operations such as `&text[8..]` are modelled
via `Char.utf8Size`).  Fallible Rust code (panics, `Result`) is modelled
with `Option`/`Except`.  The `Rc`/`Weak`/`RefCell` pointer structure of the
tree is modelled in two complementary ways:

* for the serialisation codec, a pure rose tree `ToDo` plus an explicit
  zipper (current node + ancestor frames) standing for the mutable
  `current_task` pointer of `View::fill_children`;
* for the navigation-controller claims, a rose tree `TaskNode` whose nodes
  carry the allocation identity (`id`) and the `Weak` parent reference
  (`parentId`) as data, so that the bidirectional parent/child pointer
  consistency of the Rust structure is an actual proposition.
-/

namespace Yat

/-- Task priority (`todo.rs`): `enum Priority { Low, Medium, High }`,
deriving `Ord` in declaration order, so `Low < Medium < High`. -/
inductive Priority where
  | low
  | medium
  | high
deriving DecidableEq, Repr, Fintype

/-- Rust `Ord` on `Priority` (derived: declaration order). -/
def Priority.cmp : Priority → Priority → Ordering
  | .low, .low => .eq
  | .low, _ => .lt
  | .medium, .low => .gt
  | .medium, .medium => .eq
  | .medium, .high => .lt
  | .high, .high => .eq
  | .high, _ => .gt

/-- Rust `Ord` on `Option<Priority>` (derived: `None < Some _`).  This is the
key order used by `ToDo::sort_by_priority`, with `None` below `Some(Low)`. -/
def priorityCmp : Option Priority → Option Priority → Ordering
  | none, none => .eq
  | none, some _ => .lt
  | some _, none => .gt
  | some a, some b => Priority.cmp a b

/-- Node of the todo tree (`todo.rs`): `task`, `complete`, `priority`,
`sub_tasks`.  The `parent: Weak<RefCell<ToDo>>` back-reference is not data
of the pure tree; it is modelled by the zipper used for `fill_children`
(and, with identities, by `TaskNode` below). -/
inductive ToDo where
  | mk (task : List Char) (complete : Bool) (priority : Option Priority)
      (sub_tasks : List ToDo)

/-- `task` field accessor. -/
def ToDo.task : ToDo → List Char
  | .mk t _ _ _ => t

/-- `complete` field accessor. -/
def ToDo.complete : ToDo → Bool
  | .mk _ c _ _ => c

/-- `priority` field accessor. -/
def ToDo.priority : ToDo → Option Priority
  | .mk _ _ p _ => p

/-- `sub_tasks` field accessor. -/
def ToDo.sub_tasks : ToDo → List ToDo
  | .mk _ _ _ s => s

/-- Replace the `sub_tasks` field. -/
def ToDo.withSub : ToDo → List ToDo → ToDo
  | .mk t c p _, s => .mk t c p s

/-- `ToDo::new(task, parent)`: zero children, `complete = false`,
`priority = None`. -/
def ToDo.new (task : List Char) : ToDo :=
  .mk task false none []

/-- The completion marker of `ToDo::to_string`: `"[X] "` if complete else
`"[ ] "`. -/
def completeMarker (complete : Bool) : List Char :=
  match complete with
  | true => ['[', 'X', ']', ' ']
  | false => ['[', ' ', ']', ' ']

/-- The priority marker of `ToDo::to_string`: `"(A) "` High, `"(B) "`
Medium, `"(C) "` Low, `"( ) "` None. -/
def priorityMarker (priority : Option Priority) : List Char :=
  match priority with
  | some .low => ['(', 'C', ')', ' ']
  | some .medium => ['(', 'B', ')', ' ']
  | some .high => ['(', 'A', ')', ' ']
  | none => ['(', ' ', ')', ' ']

/-- `ToDo::to_string`: completion marker, priority marker, task text,
newline. -/
def ToDo.toLine (t : ToDo) : List Char :=
  completeMarker t.complete ++ priorityMarker t.priority ++ t.task ++ ['\n']

/-- The `"    ".repeat(tabs)` indentation pad of `ToDo::all_to_string`. -/
def pad (tabs : Nat) : List Char :=
  List.replicate (4 * tabs) ' '

/-- `ToDo::all_to_string(tabs, buf)` restricted to a list of sub-tasks: for
each sub-task emit its padded line and then recurse at `tabs + 1`. -/
def allToStringList (tabs : Nat) : List ToDo → List Char
  | [] => []
  | .mk tx c p s :: ts =>
      (pad tabs ++ ToDo.toLine (.mk tx c p s))
        ++ allToStringList (tabs + 1) s ++ allToStringList tabs ts

/-- `ToDo::all_to_string(tabs, buf)`: serialise all sub-tasks of a node
(the node itself is never emitted). -/
def all_to_string (tabs : Nat) (t : ToDo) : List Char :=
  allToStringList tabs t.sub_tasks

/-- `tab_num` (`lib.rs`): count leading space characters. -/
def leadingSpaces : List Char → Nat
  | ' ' :: rest => leadingSpaces rest + 1
  | _ => 0

/-- `tab_num` (`lib.rs`): number of leading spaces, integer-divided by 4. -/
def tab_num (line : List Char) : Nat :=
  leadingSpaces line / 4

/-- Whitespace test used by Rust `str::trim_start`: `char::is_whitespace`,
i.e. the Unicode White_Space property (U+0009–U+000D, space, U+0085,
U+00A0, U+1680, U+2000–U+200A, U+2028, U+2029, U+202F, U+205F, U+3000). -/
def isWhitespaceChar (c : Char) : Bool :=
  (0x09 ≤ c.val && c.val ≤ 0x0d) || c.val = 0x20 || c.val = 0x85
    || c.val = 0xa0 || c.val = 0x1680
    || (0x2000 ≤ c.val && c.val ≤ 0x200a)
    || c.val = 0x2028 || c.val = 0x2029 || c.val = 0x202f || c.val = 0x205f
    || c.val = 0x3000

/-- Rust `str::trim_start`: drop leading whitespace. -/
def trimStart (l : List Char) : List Char :=
  l.dropWhile isWhitespaceChar

/-- Drop `n` BYTES from a UTF-8 string (`&text[n..]`).  `none` models the
Rust panic when `n` is past the end or not on a character boundary. -/
def byteDrop : Nat → List Char → Option (List Char)
  | 0, l => some l
  | _ + 1, [] => none
  | n + 1, c :: l =>
      if c.utf8Size ≤ n + 1 then byteDrop (n + 1 - c.utf8Size) l else none

/-- `ToDo::from_string(text, parent)`: positional parse of one trimmed
line.  `chars().nth(1)` decides `complete`, `chars().nth(5)` decides
`priority`; the task text is `&text[8..]`, whose Rust byte-slicing panics
(modelled by `none`) when the text is shorter than 8 bytes or byte 8 is not
a character boundary. -/
def from_string (text : List Char) : Option ToDo :=
  let complete : Bool :=
    match text[1]? with
    | some ch => ch = 'X'
    | none => false
  let priority : Option Priority :=
    match text[5]? with
    | some ch =>
        match ch with
        | 'A' => some .high
        | 'B' => some .medium
        | 'C' => some .low
        | _ => none
    | none => none
  match byteDrop 8 text with
  | none => none
  | some task => some (.mk task complete priority [])

/-- One segment step of Rust `str::lines`: strip one trailing `'\r'` from a
segment that was terminated by `'\n'`. -/
def stripCr (l : List Char) : List Char :=
  if l.getLast? = some '\r' then l.dropLast else l

/-- Helper for `rlines`: accumulate the current segment (reversed). -/
def rlinesAux : List Char → List Char → List (List Char)
  | [], acc => if acc.isEmpty then [] else [acc.reverse]
  | c :: rest, acc =>
      if c = '\n' then stripCr acc.reverse :: rlinesAux rest []
      else rlinesAux rest (c :: acc)

/-- Rust `str::lines`: split at `'\n'`, strip a `'\r'` immediately before a
`'\n'`, no trailing empty line; a final segment not terminated by `'\n'`
keeps a trailing `'\r'`. -/
def rlines (s : List Char) : List (List Char) :=
  rlinesAux s []

/-- Failures of `View::fill_children`:
the two `MalformedSave` error returns, plus `fatal` for a Rust panic
escaping from `ToDo::from_string` (`&text[8..]` out of bounds). -/
inductive PErr where
  | childWithoutParent
  | tooMuchIndentation
  | fatal
deriving DecidableEq, Repr

/-- Does a `fill_children` outcome carry a `MalformedSave` error (an `Err`
return, as opposed to success or a panic)? -/
def isMalformed : Except PErr (ToDo × List ToDo) → Bool
  | .error .childWithoutParent => true
  | .error .tooMuchIndentation => true
  | _ => false

/-- Parser state of `View::fill_children`: the `current_task` node together
with its ancestor chain.  Each ancestor frame stores the ancestor node with
the currently-entered child removed from the end of its `sub_tasks` (the
Rust code shares the child by `Rc`; the pure zipper re-attaches it when
walking up). -/
abbrev PState := ToDo × List ToDo

/-- `View::ancestor(level)`: walk `level` steps towards the root, stopping
early at the root (where the `Weak` parent fails to upgrade).  Walking up
re-attaches the current node as the last child of its parent frame. -/
def ancestor : Nat → PState → PState
  | 0, st => st
  | _ + 1, (c, []) => (c, [])
  | n + 1, (c, p :: ps) => ancestor n (p.withSub (p.sub_tasks ++ [c]), ps)

/-- Merge a node into all its ancestor frames, bottom of the zipper
first. -/
def collapseGo : ToDo → List ToDo → ToDo
  | c, [] => c
  | c, p :: ps => collapseGo (p.withSub (p.sub_tasks ++ [c])) ps

/-- Merge the whole zipper back to the root node (the tree that
`View::new_from_save` keeps a root `Rc` to). -/
def collapse (st : PState) : ToDo :=
  collapseGo st.1 st.2

/-- The indentation branch of `View::fill_children` for one line: depth
increased by one descends into the most recently added sub-task (failing
when there is none), depth decreased walks `tabs - num_tabs` ancestors up,
a jump of more than one level is `MalformedSave`, equal depth stays. -/
def arrive (num_tabs tabs : Nat) (st : PState) : Except PErr PState :=
  if num_tabs = tabs + 1 then
    match (st.1.sub_tasks).getLast? with
    | none => .error .childWithoutParent
    | some lastChild =>
        .ok (lastChild, st.1.withSub st.1.sub_tasks.dropLast :: st.2)
  else if num_tabs < tabs then
    .ok (ancestor (tabs - num_tabs) st)
  else if num_tabs > tabs + 1 then
    .error .tooMuchIndentation
  else
    .ok st

/-- `View::add_task_from_string`: append the parsed node to the current
task's `sub_tasks`. -/
def addChild (st : PState) (todo : ToDo) : PState :=
  (st.1.withSub (st.1.sub_tasks ++ [todo]), st.2)

/-- `View::fill_children(buf, tabs)`: process the save file line by line;
`tabs` is the indentation of the previous line.  Each line is positioned by
`arrive`, then parsed by `from_string` on its `trim_start()` (a panic there
is `PErr.fatal`), appended, and parsing continues with `tabs :=
num_tabs`. -/
def fill_children : List (List Char) → Nat → PState → Except PErr PState
  | [], _, st => .ok st
  | line :: rest, tabs, st =>
      let num_tabs := tab_num line
      match arrive num_tabs tabs st with
      | .error e => .error e
      | .ok st1 =>
          match from_string (trimStart line) with
          | none => .error .fatal
          | some todo => fill_children rest num_tabs (addChild st1 todo)

/-- The empty root created by `View::new` / `View::new_from_save`
(`ToDo::new("", Weak::new())`). -/
def emptyRoot : ToDo :=
  ToDo.new []

/-- Run `fill_children` on the lines of a buffer starting from a fresh
empty root, as `View::new_from_save` does. -/
def decode (buf : List Char) : Except PErr ToDo :=
  match fill_children (rlines buf) 0 (emptyRoot, []) with
  | .ok st => .ok (collapse st)
  | .error e => .error e

/-- The tree held by the `View` built by `View::new_from_save`: on success
the root of the parsed tree, on a `MalformedSave` error a fresh empty root
(the partially built tree is dropped); `none` when the parse panicked
(`from_string` byte-slice out of bounds), which aborts the process. -/
def new_from_save_root (buf : List Char) : Option ToDo :=
  match fill_children (rlines buf) 0 (emptyRoot, []) with
  | .ok st => some (collapse st)
  | .error .childWithoutParent => some emptyRoot
  | .error .tooMuchIndentation => some emptyRoot
  | .error .fatal => none

/-- Stable insertion into a list sorted ascending by the comparator: the
new element goes before the first element it does not compare `gt`
against. -/
def insertByOrd (cmp : α → α → Ordering) (x : α) : List α → List α
  | [] => [x]
  | y :: ys =>
      if cmp x y = .gt then y :: insertByOrd cmp x ys else x :: y :: ys

/-- Stable sort by a comparator.  Rust `slice::sort_by` is a stable sort
ordered ascending by the comparator; a stable sort's output is uniquely
determined by the comparator (for a total preorder), so this insertion
sort is extensionally the function computed by `sort_by`. -/
def sortByOrd (cmp : α → α → Ordering) : List α → List α
  | [] => []
  | x :: xs => insertByOrd cmp x (sortByOrd cmp xs)

/-- The comparator of `ToDo::sort_by_priority`:
`|a, b| b.priority.cmp(&a.priority)` (reversed so that `None` ends up
last). -/
def subTaskCmp (a b : ToDo) : Ordering :=
  priorityCmp b.priority a.priority

/-- `ToDo::sort_by_priority`: stable-sort the direct sub-tasks by the
reversed priority order. -/
def sort_by_priority (t : ToDo) : ToDo :=
  t.withSub (sortByOrd subTaskCmp t.sub_tasks)

/-- The priority ladder of `View::increase_priority`:
`None → Low → Medium → High → High`. -/
def incPriority : Option Priority → Option Priority
  | none => some .low
  | some .low => some .medium
  | some .medium => some .high
  | some .high => some .high

/-- The priority ladder of `View::decrease_priority`:
`None → None`, `Low → None`, `Medium → Low`, `High → Medium`. -/
def decPriority : Option Priority → Option Priority
  | none => none
  | some .low => none
  | some .medium => some .low
  | some .high => some .medium

/-! ## Support definitions for the codec proofs -/

/-- One serialised line body (line content without the trailing newline):
indentation pad, completion marker, priority marker, task text. -/
def lineBody (tabs : Nat) (t : ToDo) : List Char :=
  pad tabs ++ completeMarker t.complete ++ priorityMarker t.priority ++ t.task

/-- The sequence of line bodies emitted by `all_to_string` for a forest of
sub-tasks, in emission order. -/
def bodiesF (tabs : Nat) : List ToDo → List (List Char)
  | [] => []
  | .mk tx c p s :: ts =>
      lineBody tabs (.mk tx c p s) :: (bodiesF (tabs + 1) s ++ bodiesF tabs ts)

/-- Join line bodies with a newline after each (the shape of the
`all_to_string` output). -/
def joinNl : List (List Char) → List Char
  | [] => []
  | l :: ls => l ++ '\n' :: joinNl ls

/-- The transformation `str::lines` applies to a serialised task text: a
single trailing `'\r'` (which ends up directly before the emitted `'\n'`)
is stripped. -/
def rtTask (l : List Char) : List Char :=
  if l.getLast? = some '\r' then l.dropLast else l

mutual

/-- The tree obtained by round-tripping a tree through the codec: every
task text loses a trailing `'\r'`; shape, flags, priorities and order are
untouched. -/
def rt : ToDo → ToDo
  | .mk tx c p s => .mk (rtTask tx) c p (rtList s)

/-- `rt` mapped over a forest. -/
def rtList : List ToDo → List ToDo
  | [] => []
  | t :: ts => rt t :: rtList ts

end

/-- A task tree with its texts erased: shape, completion flags, priorities
and child order only (the data the round-trip claim compares). -/
inductive STree where
  | mk (complete : Bool) (priority : Option Priority) (children : List STree)

mutual

/-- Erase the texts of a tree, keeping shape, flags, priorities, order. -/
def strip : ToDo → STree
  | .mk _ c p s => .mk c p (stripList s)

/-- `strip` mapped over a forest. -/
def stripList : List ToDo → List STree
  | [] => []
  | t :: ts => strip t :: stripList ts

end

/-- The text condition of the round-trip claim: the task text contains no
newline and does not start with a space. -/
def goodTask (l : List Char) : Bool :=
  l.all (fun c => !(c = '\n')) && !(l.head? = some ' ')

mutual

/-- Every task text in the tree satisfies `goodTask`. -/
def goodT : ToDo → Bool
  | .mk tx _ _ s => goodTask tx && goodL s

/-- Every task text in the forest satisfies `goodTask`. -/
def goodL : List ToDo → Bool
  | [] => true
  | t :: ts => goodT t && goodL ts

end

/-- Decidable success test for a `fill_children` outcome. -/
def isOkE : Except PErr PState → Bool
  | .ok _ => true
  | .error _ => false

/-- The declarative depth condition (a) of the decoding claim: some line's
depth exceeds the previous line's depth by more than one (the previous
depth of the first line being the initial `tabs` value). -/
def depthsBad : Nat → List Nat → Bool
  | _, [] => false
  | prev, d :: ds => decide (d > prev + 1) || depthsBad d ds

/-- The side condition under which `from_string` does not panic on a line:
after trimming, the line has at least 8 bytes and byte 8 falls on a
character boundary. -/
def ok8 (l : List Char) : Bool :=
  (byteDrop 8 (trimStart l)).isSome

/-- `fill_children` started the way `View::new_from_save` starts it: at
depth 0 on a fresh empty root. -/
def fillRoot (ls : List (List Char)) : Except PErr PState :=
  fill_children ls 0 (emptyRoot, [])

/-! ## The navigation controller (`View`) -/

/-- Node of the navigation model: the `ToDo` data plus the allocation
identity of its `Rc` cell (`id`) and the `Weak` parent back-reference
recorded as the parent's identity (`parentId`).  This makes the pointer
structure of `Rc<RefCell<ToDo>>`/`Weak<RefCell<ToDo>>` propositional: two
`Rc`s are the same cell iff the ids agree. -/
inductive TaskNode where
  | mk (id : Nat) (task : List Char) (complete : Bool) (priority : Option Priority)
      (parentId : Option Nat) (children : List TaskNode)

/-- `id` accessor. -/
def TaskNode.nid : TaskNode → Nat
  | .mk i _ _ _ _ _ => i

/-- `task` accessor. -/
def TaskNode.task : TaskNode → List Char
  | .mk _ t _ _ _ _ => t

/-- `complete` accessor. -/
def TaskNode.complete : TaskNode → Bool
  | .mk _ _ c _ _ _ => c

/-- `priority` accessor. -/
def TaskNode.priority : TaskNode → Option Priority
  | .mk _ _ _ p _ _ => p

/-- `parent` accessor (the id the `Weak` reference points at). -/
def TaskNode.parentId : TaskNode → Option Nat
  | .mk _ _ _ _ q _ => q

/-- `sub_tasks` accessor. -/
def TaskNode.children : TaskNode → List TaskNode
  | .mk _ _ _ _ _ cs => cs

/-- Replace the children list. -/
def TaskNode.withChildren : TaskNode → List TaskNode → TaskNode
  | .mk i t c p q _, cs => .mk i t c p q cs

/-- Replace the task text (`View::edit_task`). -/
def TaskNode.withTask : TaskNode → List Char → TaskNode
  | .mk i _ c p q cs, t => .mk i t c p q cs

/-- Flip the completion flag (`View::complete_task`). -/
def TaskNode.flipComplete : TaskNode → TaskNode
  | .mk i t c p q cs => .mk i t (!c) p q cs

/-- Apply a function to the priority (`View::increase_priority` /
`View::decrease_priority`). -/
def TaskNode.mapPriority : TaskNode → (Option Priority → Option Priority) → TaskNode
  | .mk i t c p q cs, f => .mk i t c (f p) q cs

/-- Resolve a child-index path from a node (the chain of `Rc` borrows from
the root to `current_task`). -/
def getAt : TaskNode → List Nat → Option TaskNode
  | t, [] => some t
  | t, i :: p =>
      match t.children[i]? with
      | none => none
      | some c => getAt c p

/-- Apply `f` to the node addressed by a child-index path (a mutation
through the `RefCell` at the end of the borrow chain). -/
def modifyAt : TaskNode → List Nat → (TaskNode → TaskNode) → Option TaskNode
  | t, [], f => some (f t)
  | t, i :: p, f =>
      match t.children[i]? with
      | none => none
      | some c =>
          match modifyAt c p f with
          | none => none
          | some c' => some (t.withChildren (t.children.set i c'))

/-- Number of children of the node at the path (0 if the path dangles). -/
def childCountAt (t : TaskNode) (p : List Nat) : Nat :=
  match getAt t p with
  | some c => c.children.length
  | none => 0

/-- Apply `g` to the `i`-th element (`sub_tasks[i].borrow_mut()`; the
caller guards the index). -/
def setChild (l : List TaskNode) (i : Nat) (g : TaskNode → TaskNode) : List TaskNode :=
  match l[i]? with
  | none => l
  | some c => l.set i (g c)

/-- Rust `Vec::swap` on valid indices. -/
def listSwap (l : List α) (i j : Nat) : List α :=
  match l[i]?, l[j]? with
  | some a, some b => (l.set i b).set j a
  | _, _ => l

/-- The comparator of `View::sort_by_priority` lifted to `TaskNode`
(delegating to `ToDo::sort_by_priority`). -/
def taskNodeCmp (a b : TaskNode) : Ordering :=
  priorityCmp b.priority a.priority

/-- The navigation state of `View`: the tree (root of `current_task`'s
chain), the child-index path to `current_task`, `selection`, the `root`
flag, the stack of `(selection, root)` frames saved by the recursive
`new_focus` calls (innermost first), and the next fresh allocation id. -/
structure ViewSt where
  tree : TaskNode
  path : List Nat
  selection : Option Nat
  root : Bool
  frames : List (Option Nat × Bool)
  next : Nat

/-- The commands of the `View::run` loop that touch the tree or the
selection, with the free-text / confirmation inputs their dialogues
produce. -/
inductive Cmd where
  | add (text : List Char)
  | edit (text : List Char)
  | delete (confirm : Bool)
  | taskUp
  | taskDown
  | focus
  | back
  | selUp
  | selDown
  | complete
  | increase
  | decrease
  | sort

/-- One command of the `View::run` loop, as a state transition.  `none`
models a Rust panic (out-of-bounds `sub_tasks[index]`, `Vec::swap` /
`Vec::remove` out of range, `usize` underflow, failed `Weak::upgrade`
unwrap). -/
def step (c : Cmd) (s : ViewSt) : Option ViewSt :=
  match c with
  | .add text =>
      -- add_task_from_input: push a new node, select the new last index
      match modifyAt s.tree s.path
          (fun t => t.withChildren
            (t.children ++ [TaskNode.mk s.next text false none (some t.nid) []])) with
      | none => none
      | some tr =>
          some { s with
                  tree := tr
                  selection := some (childCountAt s.tree s.path)
                  next := s.next + 1 }
  | .edit text =>
      -- edit_task: no-op when selection is None; sub_tasks[index] panics
      -- when the index is out of range
      match s.selection with
      | none => some s
      | some i =>
          if i < childCountAt s.tree s.path then
            match modifyAt s.tree s.path
                (fun t => t.withChildren (setChild t.children i (fun c => c.withTask text))) with
            | none => none
            | some tr => some { s with tree := tr }
          else none
  | .delete confirm =>
      -- remove_task: confirmation popup, then Vec::remove and selection := None
      match s.selection with
      | none => some s
      | some i =>
          if confirm then
            if i < childCountAt s.tree s.path then
              match modifyAt s.tree s.path
                  (fun t => t.withChildren (t.children.eraseIdx i)) with
              | none => none
              | some tr => some { s with tree := tr, selection := none }
            else none
          else some s
  | .taskUp =>
      -- move_task(true): swap with the previous entry, wrapping to the end;
      -- len() - 1 underflows (and swap panics) when the list is empty or the
      -- index is out of range
      match s.selection with
      | none => some s
      | some i =>
          let n := childCountAt s.tree s.path
          if n = 0 ∨ n ≤ i then none
          else
            let new := if i = 0 then n - 1 else i - 1
            match modifyAt s.tree s.path
                (fun t => t.withChildren (listSwap t.children new i)) with
            | none => none
            | some tr => some { s with tree := tr, selection := some new }
  | .taskDown =>
      -- move_task(false): swap with the next entry, wrapping to the front
      match s.selection with
      | none => some s
      | some i =>
          let n := childCountAt s.tree s.path
          if n = 0 ∨ n ≤ i then none
          else
            let new := if i = n - 1 then 0 else i + 1
            match modifyAt s.tree s.path
                (fun t => t.withChildren (listSwap t.children new i)) with
            | none => none
            | some tr => some { s with tree := tr, selection := some new }
  | .focus =>
      -- new_focus: save (selection, root), descend into the selected child,
      -- select 0 iff it has children; the inner run loop follows
      match s.selection with
      | none => some s
      | some i =>
          match getAt s.tree (s.path ++ [i]) with
          | none => none
          | some child =>
              some { s with
                      path := s.path ++ [i]
                      root := false
                      selection := if child.children.isEmpty then none else some 0
                      frames := (s.selection, s.root) :: s.frames }
  | .back =>
      -- run: `back` at the root is a no-op; otherwise the inner run loop
      -- returns to new_focus, which restores current/selection/root
      if s.root then some s
      else
        match s.frames, s.path with
        | (sel, rt) :: fr, _ :: _ =>
            some { s with
                    path := s.path.dropLast
                    selection := sel
                    root := rt
                    frames := fr }
        | _, _ => none
  | .selUp =>
      -- move_selection(true) / up(): index 0 wraps to index + ntasks - 1
      -- (usize underflow when ntasks = 0)
      match s.selection with
      | none =>
          some { s with selection :=
            match childCountAt s.tree s.path with
            | 0 => none
            | _ => some 0 }
      | some i =>
          let n := childCountAt s.tree s.path
          if i = 0 then
            if n = 0 then none else some { s with selection := some (i + n - 1) }
          else some { s with selection := some (i - 1) }
  | .selDown =>
      -- move_selection(false) / down(): index + 1 ≥ ntasks wraps to
      -- index + 1 - ntasks
      match s.selection with
      | none =>
          some { s with selection :=
            match childCountAt s.tree s.path with
            | 0 => none
            | _ => some 0 }
      | some i =>
          let n := childCountAt s.tree s.path
          some { s with selection := some (if i + 1 ≥ n then i + 1 - n else i + 1) }
  | .complete =>
      -- complete_task: flip sub_tasks[index].complete
      match s.selection with
      | none => some s
      | some i =>
          if i < childCountAt s.tree s.path then
            match modifyAt s.tree s.path
                (fun t => t.withChildren (setChild t.children i TaskNode.flipComplete)) with
            | none => none
            | some tr => some { s with tree := tr }
          else none
  | .increase =>
      match s.selection with
      | none => some s
      | some i =>
          if i < childCountAt s.tree s.path then
            match modifyAt s.tree s.path
                (fun t => t.withChildren
                  (setChild t.children i (fun c => c.mapPriority incPriority))) with
            | none => none
            | some tr => some { s with tree := tr }
          else none
  | .decrease =>
      match s.selection with
      | none => some s
      | some i =>
          if i < childCountAt s.tree s.path then
            match modifyAt s.tree s.path
                (fun t => t.withChildren
                  (setChild t.children i (fun c => c.mapPriority decPriority))) with
            | none => none
            | some tr => some { s with tree := tr }
          else none
  | .sort =>
      match modifyAt s.tree s.path
          (fun t => t.withChildren (sortByOrd taskNodeCmp t.children)) with
      | none => none
      | some tr => some { s with tree := tr }

/-- The command-specific clauses of the selection-invariant claim: `add`
selects the new last index, a confirmed `delete` resets the selection to
`None`, `move` keeps the selection attached to the moved child, and `back`
returns to the parent (whose children were not changed while focused, so
the restored selection is valid — part of `Valid`). -/
def stepClause : Cmd → ViewSt → ViewSt → Prop
  | .add _, s, s' =>
      s'.selection = some (childCountAt s.tree s.path)
        ∧ childCountAt s'.tree s'.path = childCountAt s.tree s.path + 1
  | .delete true, s, s' => s.selection.isSome = true → s'.selection = none
  | .taskUp, s, s' =>
      ∀ i, s.selection = some i →
        ∃ j, s'.selection = some j
          ∧ (getAt s'.tree s'.path).bind (fun u => u.children[j]?)
              = (getAt s.tree s.path).bind (fun u => u.children[i]?)
  | .taskDown, s, s' =>
      ∀ i, s.selection = some i →
        ∃ j, s'.selection = some j
          ∧ (getAt s'.tree s'.path).bind (fun u => u.children[j]?)
              = (getAt s.tree s.path).bind (fun u => u.children[i]?)
  | .back, s, s' => s.root = false → s'.path = s.path.dropLast
  | _, _, _ => True

/-- The selection re-validation at the top of `View::list_tasks`: a
selection index larger than `sub_tasks.len() - 1` is reset to `None` with a
warning.  When the list is empty, `sub_tasks.len() - 1` underflows: a panic
in a debug build, and a wrap-around in release so that the bounds check
passes and `sub_tasks[index]` panics — modelled as `none`. -/
def list_tasks_validate (s : ViewSt) : Option ViewSt :=
  match s.selection with
  | none => some s
  | some index =>
      let n := childCountAt s.tree s.path
      if n = 0 then none
      else if index > n - 1 then some { s with selection := none }
      else some s

/-- Selection validity (`selection` is in range of the current list). -/
def selOkB : Option Nat → Nat → Bool
  | none, _ => true
  | some i, n => decide (i < n)

/-- The focus frames match the path: the frame saved at each level records
the selection that was focused (the path index into that level) and the
`root` flag of that level (true exactly at the outermost level). -/
def frOk : List Nat → List (Option Nat × Bool) → Bool
  | [], [] => true
  | i :: rp, (sel, b) :: fr => sel == some i && (b == rp.isEmpty) && frOk rp fr
  | _, _ => false

/-- The navigation invariant (C10): the path resolves, the selection is in
range of the current node's children, the focus frames agree with the
path, and the `root` flag holds exactly at the top level. -/
def Valid (s : ViewSt) : Prop :=
  (getAt s.tree s.path).isSome = true
  ∧ selOkB s.selection (childCountAt s.tree s.path) = true
  ∧ frOk s.path.reverse s.frames = true
  ∧ s.root = s.path.isEmpty

mutual

/-- All node ids of the tree, in pre-order. -/
def idsOf : TaskNode → List Nat
  | .mk i _ _ _ _ cs => i :: idsOfList cs

/-- All node ids of a forest. -/
def idsOfList : List TaskNode → List Nat
  | [] => []
  | t :: ts => idsOf t ++ idsOfList ts

end

mutual

/-- Every node's `parentId` is the id of its actual parent (`exp` for the
top node). -/
def parentOk (exp : Option Nat) : TaskNode → Bool
  | .mk i _ _ _ q cs => (q == exp) && parentOkList (some i) cs

/-- `parentOk` over a forest of siblings. -/
def parentOkList (exp : Option Nat) : List TaskNode → Bool
  | [] => true
  | t :: ts => parentOk exp t && parentOkList exp ts

end

mutual

/-- All nodes of the tree (as subtree values), in pre-order. -/
def allNodes : TaskNode → List TaskNode
  | .mk i t c p q cs => .mk i t c p q cs :: allNodesList cs

/-- All nodes of a forest. -/
def allNodesList : List TaskNode → List TaskNode
  | [] => []
  | t :: ts => allNodes t ++ allNodesList ts

end

/-- The tree-identity invariant (C4): distinct ids, correct parent
back-references, all ids below the allocation counter. -/
def TreeInv (s : ViewSt) : Prop :=
  (idsOf s.tree).Nodup
  ∧ parentOk none s.tree = true
  ∧ ∀ j ∈ idsOf s.tree, j < s.next

/-- Bidirectional parent/child consistency, as the claim states it: every
node of the tree whose parent reference is set has its parent in the tree;
it occurs exactly once (by id) in that parent's children sequence, and it
is one of that parent's children. -/
def BiCons (t : TaskNode) : Prop :=
  ∀ n ∈ allNodes t, ∀ pid, n.parentId = some pid →
    ∃ p ∈ allNodes t, p.nid = pid
      ∧ (p.children.map TaskNode.nid).count n.nid = 1
      ∧ n ∈ p.children

/-! ## The line editor (`View::dialogue`) -/

/-- The state of the `dialogue` line editor: the entry text, the cursor as
a byte offset (`index`), the cursor column (`chars`) and the total
displayed width (`nchars`). -/
structure Editor where
  entry : List Char
  index : Nat
  chars : Nat
  nchars : Nat

/-- Char position of a byte offset in a UTF-8 string: `some k` when the
offset is the byte length of the first `k` characters (a character
boundary), `none` otherwise. -/
def charPosOfByte : List Char → Nat → Option Nat
  | _, 0 => some 0
  | [], _ + 1 => none
  | c :: l, n + 1 =>
      if c.utf8Size ≤ n + 1 then (charPosOfByte l (n + 1 - c.utf8Size)).map (· + 1)
      else none

/-- The `Key::Backspace` branch of `View::dialogue`, parametrised by the
display-width function of the external `unicode_width` crate.  When the
entry is non-empty and the cursor byte offset is positive (and on a
character boundary, which the editor maintains), the backward boundary
scan lands on the start of the previous character: that character is
removed, the byte offset shrinks by its UTF-8 length and both width
counters by its display width.  When the cursor is at byte offset 0 with a
non-empty entry, the scan loop does not run, the measured slice
`entry[0..0]` has width 0, and `String::remove(0)` deletes the FIRST
character of the entry while the offset and both counters stay unchanged. -/
def backspace (width : Char → Nat) (e : Editor) : Editor :=
  if e.entry = [] then e
  else if e.index = 0 then
    { e with entry := e.entry.tail }
  else
    match charPosOfByte e.entry e.index with
    | none => e
    | some k =>
        match e.entry[k - 1]? with
        | none => e
        | some c =>
            { entry := e.entry.eraseIdx (k - 1)
              index := e.index - c.utf8Size
              chars := e.chars - width c
              nchars := e.nchars - width c }

/-! ## Support lemmas: the stable sort -/

theorem insertByOrd_perm (cmp : α → α → Ordering) (x : α) :
    ∀ l : List α, List.Perm (insertByOrd cmp x l) (x :: l) := by
  intro l
  induction l with
  | nil => exact List.Perm.refl _
  | cons y ys ih =>
      by_cases h : cmp x y = .gt
      · simpa [insertByOrd, h] using ((ih.cons y).trans (List.Perm.swap x y ys))
      · simp [insertByOrd, h]

theorem sortByOrd_perm (cmp : α → α → Ordering) :
    ∀ l : List α, List.Perm (sortByOrd cmp l) l := by
  intro l
  induction l with
  | nil => exact List.Perm.refl _
  | cons x xs ih =>
      exact (insertByOrd_perm cmp x (sortByOrd cmp xs)).trans (ih.cons x)

theorem insertByOrd_pairwise {cmp : α → α → Ordering}
    (hasym : ∀ a b, cmp a b = .gt → cmp b a ≠ .gt)
    (htrans : ∀ a b c, cmp a b ≠ .gt → cmp b c ≠ .gt → cmp a c ≠ .gt)
    (x : α) : ∀ l : List α,
    l.Pairwise (fun a b => cmp a b ≠ .gt) →
    (insertByOrd cmp x l).Pairwise (fun a b => cmp a b ≠ .gt) := by
  intro l
  induction l with
  | nil => intro _; simp [insertByOrd]
  | cons y ys ih =>
      intro hp
      rw [List.pairwise_cons] at hp
      rw [show insertByOrd cmp x (y :: ys)
            = if cmp x y = .gt then y :: insertByOrd cmp x ys
              else x :: y :: ys from rfl]
      by_cases h : cmp x y = .gt
      · have hmem : ∀ z, z ∈ insertByOrd cmp x ys → z ∈ x :: ys := by
          intro z hz
          exact (insertByOrd_perm cmp x ys).mem_iff.mp hz
        rw [if_pos h, List.pairwise_cons]
        refine ⟨?_, ih hp.2⟩
        intro z hz
        rcases List.mem_cons.mp (hmem z hz) with rfl | hz'
        · exact hasym z y h
        · exact hp.1 z hz'
      · rw [if_neg h, List.pairwise_cons]
        refine ⟨?_, List.Pairwise.cons hp.1 hp.2⟩
        intro z hz
        rcases List.mem_cons.mp hz with rfl | hz'
        · exact h
        · exact htrans x y z h (hp.1 z hz')

theorem sortByOrd_pairwise {cmp : α → α → Ordering}
    (hasym : ∀ a b, cmp a b = .gt → cmp b a ≠ .gt)
    (htrans : ∀ a b c, cmp a b ≠ .gt → cmp b c ≠ .gt → cmp a c ≠ .gt) :
    ∀ l : List α, (sortByOrd cmp l).Pairwise (fun a b => cmp a b ≠ .gt) := by
  intro l
  induction l with
  | nil => simp [sortByOrd]
  | cons x xs ih => exact insertByOrd_pairwise hasym htrans x _ ih

theorem priorityCmp_gt_asym :
    ∀ a b : Option Priority, priorityCmp a b = .gt → priorityCmp b a ≠ .gt := by
  decide

theorem priorityCmp_not_gt_trans :
    ∀ a b c : Option Priority,
      priorityCmp a b ≠ .gt → priorityCmp b c ≠ .gt → priorityCmp a c ≠ .gt := by
  decide

theorem priorityCmp_gt_ne :
    ∀ a b : Option Priority, priorityCmp a b = .gt → a ≠ b := by
  decide

/-- Stability of the insertion at fixed priority: inserting an element of
priority `p` prepends it to the `p`-filtered list (all skipped elements
have strictly greater priority), and inserting one of another priority
leaves the `p`-filtered list untouched. -/
theorem insertByOrd_filter_priority (p : Option Priority) (x : ToDo) :
    ∀ l : List ToDo,
      (insertByOrd subTaskCmp x l).filter (fun c => c.priority == p)
        = (if x.priority == p then x :: l.filter (fun c => c.priority == p)
           else l.filter (fun c => c.priority == p)) := by
  intro l
  induction l with
  | nil =>
      by_cases hx : x.priority = p <;> simp [insertByOrd, hx]
  | cons y ys ih =>
      rw [show insertByOrd subTaskCmp x (y :: ys)
            = if subTaskCmp x y = .gt then y :: insertByOrd subTaskCmp x ys
              else x :: y :: ys from rfl]
      by_cases h : subTaskCmp x y = .gt
      · rw [if_pos h]
        by_cases hx : x.priority = p
        · have hy : ¬ y.priority = p := by
            have hne := priorityCmp_gt_ne y.priority x.priority h
            rw [hx] at hne
            exact hne
          simp [List.filter_cons, hy, hx, ih]
        · simp [List.filter_cons, hx, ih]
      · rw [if_neg h]
        by_cases hx : x.priority = p <;> simp [List.filter_cons, hx]

/-- Stability of `sortByOrd` with the sub-task comparator: for every
priority value the subsequence at that priority is unchanged. -/
theorem sortByOrd_filter_priority (p : Option Priority) :
    ∀ l : List ToDo,
      (sortByOrd subTaskCmp l).filter (fun c => c.priority == p)
        = l.filter (fun c => c.priority == p) := by
  intro l
  induction l with
  | nil => simp [sortByOrd]
  | cons x xs ih =>
      by_cases hx : x.priority == p
      · simp [sortByOrd, insertByOrd_filter_priority, hx, List.filter, ih]
      · simp [sortByOrd, insertByOrd_filter_priority, hx, List.filter, ih]

/-! ## Support lemmas: the task tree -/

@[simp] theorem ToDo.task_mk (tx c p s) : (ToDo.mk tx c p s).task = tx := rfl

@[simp] theorem ToDo.complete_mk (tx c p s) : (ToDo.mk tx c p s).complete = c := rfl

@[simp] theorem ToDo.priority_mk (tx c p s) : (ToDo.mk tx c p s).priority = p := rfl

@[simp] theorem ToDo.sub_tasks_mk (tx c p s) : (ToDo.mk tx c p s).sub_tasks = s := rfl

@[simp] theorem ToDo.withSub_mk (tx c p s s') :
    (ToDo.mk tx c p s).withSub s' = ToDo.mk tx c p s' := rfl

theorem ToDo.withSub_self (t : ToDo) : t.withSub t.sub_tasks = t := by
  cases t
  rfl

/-- Structural induction over forests of tasks, recursing both into the
children of the head and into the tail. -/
theorem forest_ind {P : List ToDo → Prop} (h0 : P [])
    (h1 : ∀ tx c p s ts, P s → P ts → P (ToDo.mk tx c p s :: ts)) :
    ∀ ts, P ts := by
  have key : ∀ N ts, sizeOf ts ≤ N → P ts := by
    intro N
    induction N with
    | zero =>
        intro ts h
        cases ts with
        | nil => exact h0
        | cons t ts' =>
            exfalso
            cases t
            simp only [List.cons.sizeOf_spec, ToDo.mk.sizeOf_spec] at h
            omega
    | succ N ih =>
        intro ts h
        cases ts with
        | nil => exact h0
        | cons t ts' =>
            cases t with
            | mk tx c p s =>
                simp only [List.cons.sizeOf_spec, ToDo.mk.sizeOf_spec] at h
                exact h1 tx c p s ts' (ih s (by omega)) (ih ts' (by omega))
  intro ts
  exact key (sizeOf ts) ts le_rfl

theorem joinNl_append : ∀ a b : List (List Char), joinNl (a ++ b) = joinNl a ++ joinNl b := by
  intro a b
  induction a with
  | nil => rfl
  | cons l ls ih => simp [joinNl, ih]

theorem allToStringList_eq_joinNl :
    ∀ ts (k : Nat), allToStringList k ts = joinNl (bodiesF k ts) := by
  refine forest_ind ?_ ?_
  · intro k
    simp [allToStringList, bodiesF, joinNl]
  · intro tx c p s ts ihs ihts k
    simp only [allToStringList, bodiesF, joinNl, joinNl_append, ihs, ihts]
    simp [ToDo.toLine, lineBody, List.append_assoc]

/-! ## Support lemmas: `str::lines` -/

theorem rlinesAux_line :
    ∀ (l : List Char), (∀ ch ∈ l, ch ≠ '\n') → ∀ (acc rest : List Char),
      rlinesAux (l ++ '\n' :: rest) acc
        = stripCr (acc.reverse ++ l) :: rlinesAux rest [] := by
  intro l
  induction l with
  | nil =>
      intro _ acc rest
      simp [rlinesAux]
  | cons ch l' ih =>
      intro h acc rest
      have hch : ¬ ch = '\n' := h ch (List.mem_cons_self ch l')
      have h' : ∀ x ∈ l', x ≠ '\n' := fun x hx => h x (List.mem_cons_of_mem ch hx)
      rw [List.cons_append]
      rw [show rlinesAux (ch :: (l' ++ '\n' :: rest)) acc
            = if ch = '\n' then stripCr acc.reverse :: rlinesAux (l' ++ '\n' :: rest) []
              else rlinesAux (l' ++ '\n' :: rest) (ch :: acc) from rfl]
      rw [if_neg hch, ih h' (ch :: acc) rest]
      simp

theorem rlines_joinNl :
    ∀ ls : List (List Char), (∀ l ∈ ls, ∀ ch ∈ l, ch ≠ '\n') →
      rlines (joinNl ls) = ls.map stripCr := by
  intro ls
  induction ls with
  | nil => intro _; rfl
  | cons l ls' ih =>
      intro h
      have hl : ∀ ch ∈ l, ch ≠ '\n' := h l (List.mem_cons_self l ls')
      have hls : ∀ m ∈ ls', ∀ ch ∈ m, ch ≠ '\n' :=
        fun m hm => h m (List.mem_cons_of_mem l hm)
      simp only [joinNl, rlines] at *
      rw [rlinesAux_line l hl [] (joinNl ls')]
      simp [ih hls]

/-! ## Support lemmas: one serialised line parses back -/

theorem priorityMarker_getLast (p : Option Priority) :
    (priorityMarker p).getLast? = some ' ' := by
  cases p with
  | none => rfl
  | some q => cases q <;> rfl

theorem priorityMarker_ne_nil (p : Option Priority) : priorityMarker p ≠ [] := by
  cases p with
  | none => simp [priorityMarker]
  | some q => cases q <;> simp [priorityMarker]

theorem stripCr_append_sp {x : List Char} (hx : x.getLast? = some ' ') (τ : List Char) :
    stripCr (x ++ τ) = x ++ rtTask τ := by
  unfold stripCr rtTask
  by_cases h : τ = []
  · subst h
    rw [List.append_nil, hx]
    simp
  · rw [List.getLast?_append_of_ne_nil _ h]
    by_cases hcr : τ.getLast? = some '\r'
    · rw [if_pos hcr, if_pos hcr, List.dropLast_append_of_ne_nil _ h]
    · rw [if_neg hcr, if_neg hcr]

theorem stripCr_lineBody (k : Nat) (t : ToDo) :
    stripCr (lineBody k t)
      = pad k ++ completeMarker t.complete ++ priorityMarker t.priority ++ rtTask t.task := by
  have hx : (pad k ++ completeMarker t.complete ++ priorityMarker t.priority).getLast?
      = some ' ' := by
    rw [List.getLast?_append_of_ne_nil _ (priorityMarker_ne_nil t.priority),
        priorityMarker_getLast]
  exact stripCr_append_sp hx t.task

theorem leadingSpaces_replicate (n : Nat) (l : List Char) :
    leadingSpaces (List.replicate n ' ' ++ l) = n + leadingSpaces l := by
  induction n with
  | zero => simp
  | succ m ih =>
      rw [List.replicate_succ, List.cons_append]
      rw [show leadingSpaces (' ' :: (List.replicate m ' ' ++ l))
            = leadingSpaces (List.replicate m ' ' ++ l) + 1 from rfl]
      omega

theorem leadingSpaces_completeMarker (c : Bool) (l : List Char) :
    leadingSpaces (completeMarker c ++ l) = 0 := by
  cases c <;> rfl

theorem tab_num_marked (k : Nat) (c : Bool) (p : Option Priority) (τ : List Char) :
    tab_num (pad k ++ completeMarker c ++ priorityMarker p ++ τ) = k := by
  unfold tab_num pad
  rw [List.append_assoc, List.append_assoc, leadingSpaces_replicate,
      leadingSpaces_completeMarker]
  rw [Nat.add_zero, Nat.mul_div_cancel_left k (by norm_num)]

theorem isWhitespaceChar_space : isWhitespaceChar ' ' = true := by decide

theorem trimStart_replicate (n : Nat) (l : List Char) :
    trimStart (List.replicate n ' ' ++ l) = trimStart l := by
  unfold trimStart
  induction n with
  | zero => rfl
  | succ m ih =>
      rw [List.replicate_succ, List.cons_append, List.dropWhile_cons]
      rw [if_pos (by decide : isWhitespaceChar ' ' = true)]
      exact ih

theorem trimStart_marked (k : Nat) (c : Bool) (p : Option Priority) (τ : List Char) :
    trimStart (pad k ++ completeMarker c ++ priorityMarker p ++ τ)
      = completeMarker c ++ priorityMarker p ++ τ := by
  unfold pad
  rw [List.append_assoc, List.append_assoc, trimStart_replicate]
  rw [← List.append_assoc]
  cases c <;> rfl

theorem byteDrop_cons_one {c : Char} (h : c.utf8Size = 1) (n : Nat) (l : List Char) :
    byteDrop (n + 1) (c :: l) = byteDrop n l := by
  simp [byteDrop, h]

theorem byteDrop_zero (l : List Char) : byteDrop 0 l = some l := by
  cases l <;> rfl

/-- `from_string` unfolded to its byte-slice skeleton. -/
theorem from_string_byteDrop (text : List Char) :
    from_string text
      = (match byteDrop 8 text with
         | none => none
         | some task =>
             some (ToDo.mk task
               (match text[1]? with
                | some ch => ch = 'X'
                | none => false)
               (match text[5]? with
                | some ch =>
                    match ch with
                    | 'A' => some .high
                    | 'B' => some .medium
                    | 'C' => some .low
                    | _ => none
                | none => none) [])) := rfl

theorem from_string_marked (c : Bool) (p : Option Priority) (τ : List Char) :
    from_string (completeMarker c ++ priorityMarker p ++ τ)
      = some (ToDo.mk τ c p []) := by
  have key : ∀ b f : Char, b.utf8Size = 1 → f.utf8Size = 1 →
      byteDrop 8 ('[' :: b :: ']' :: ' ' :: '(' :: f :: ')' :: ' ' :: τ) = some τ := by
    intro b f hb hf
    rw [byteDrop_cons_one (show ('[' : Char).utf8Size = 1 by decide),
        byteDrop_cons_one hb,
        byteDrop_cons_one (show (']' : Char).utf8Size = 1 by decide),
        byteDrop_cons_one (show (' ' : Char).utf8Size = 1 by decide),
        byteDrop_cons_one (show ('(' : Char).utf8Size = 1 by decide),
        byteDrop_cons_one hf,
        byteDrop_cons_one (show (')' : Char).utf8Size = 1 by decide),
        byteDrop_cons_one (show (' ' : Char).utf8Size = 1 by decide),
        byteDrop_zero]
  cases c with
  | false =>
      rcases p with _ | q
      · rw [from_string_byteDrop]
        simp only [completeMarker, priorityMarker, List.cons_append, List.nil_append]
        rw [key ' ' ' ' (by decide) (by decide)]
        rfl
      · cases q with
        | low =>
            rw [from_string_byteDrop]
            simp only [completeMarker, priorityMarker, List.cons_append, List.nil_append]
            rw [key ' ' 'C' (by decide) (by decide)]
            rfl
        | medium =>
            rw [from_string_byteDrop]
            simp only [completeMarker, priorityMarker, List.cons_append, List.nil_append]
            rw [key ' ' 'B' (by decide) (by decide)]
            rfl
        | high =>
            rw [from_string_byteDrop]
            simp only [completeMarker, priorityMarker, List.cons_append, List.nil_append]
            rw [key ' ' 'A' (by decide) (by decide)]
            rfl
  | true =>
      rcases p with _ | q
      · rw [from_string_byteDrop]
        simp only [completeMarker, priorityMarker, List.cons_append, List.nil_append]
        rw [key 'X' ' ' (by decide) (by decide)]
        rfl
      · cases q with
        | low =>
            rw [from_string_byteDrop]
            simp only [completeMarker, priorityMarker, List.cons_append, List.nil_append]
            rw [key 'X' 'C' (by decide) (by decide)]
            rfl
        | medium =>
            rw [from_string_byteDrop]
            simp only [completeMarker, priorityMarker, List.cons_append, List.nil_append]
            rw [key 'X' 'B' (by decide) (by decide)]
            rfl
        | high =>
            rw [from_string_byteDrop]
            simp only [completeMarker, priorityMarker, List.cons_append, List.nil_append]
            rw [key 'X' 'A' (by decide) (by decide)]
            rfl

/-! ## Support lemmas: zipper algebra -/

theorem ancestor_nil (n : Nat) (c : ToDo) : ancestor n (c, []) = (c, []) := by
  cases n <;> rfl

theorem ancestor_succ (n : Nat) (st : PState) :
    ancestor (n + 1) st = ancestor n (ancestor 1 st) := by
  obtain ⟨c, anc⟩ := st
  cases anc with
  | nil => rw [ancestor_nil, ancestor_nil, ancestor_nil]
  | cons p ps => rfl

theorem collapse_ancestor (n : Nat) (st : PState) :
    collapse (ancestor n st) = collapse st := by
  induction n generalizing st with
  | zero => rfl
  | succ m ih =>
      obtain ⟨c, anc⟩ := st
      cases anc with
      | nil => rw [ancestor_nil]
      | cons p ps =>
          rw [show ancestor (m + 1) (c, p :: ps)
                = ancestor m (p.withSub (p.sub_tasks ++ [c]), ps) from rfl]
          rw [ih]
          rfl

/-! ## Support lemmas: running `fill_children` over a serialised forest -/

theorem ToDo.withSub_withSub (x : ToDo) (a b : List ToDo) :
    (x.withSub a).withSub b = x.withSub b := by
  cases x
  rfl

theorem ToDo.sub_tasks_withSub (x : ToDo) (a : List ToDo) :
    (x.withSub a).sub_tasks = a := by
  cases x
  rfl

theorem collapse_cons (x p : ToDo) (ps : List ToDo) :
    collapse (x, p :: ps) = collapse (p.withSub (p.sub_tasks ++ [x]), ps) := rfl

theorem ancestor_one_cons (x p : ToDo) (ps : List ToDo) :
    ancestor 1 (x, p :: ps) = (p.withSub (p.sub_tasks ++ [x]), ps) := rfl

theorem arrive_self (tabs : Nat) (st : PState) : arrive tabs tabs st = .ok st := by
  unfold arrive
  rw [if_neg (by omega), if_neg (by omega), if_neg (by omega)]

theorem arrive_descend (k : Nat) (c x : ToDo) (anc : List ToDo) :
    arrive (k + 1) k (c.withSub (c.sub_tasks ++ [x]), anc) = .ok (x, c :: anc) := by
  unfold arrive
  rw [if_pos rfl]
  rw [show ((c.withSub (c.sub_tasks ++ [x]), anc) : PState).1 = c.withSub (c.sub_tasks ++ [x])
      from rfl]
  rw [ToDo.sub_tasks_withSub, List.getLast?_concat, List.dropLast_concat,
      ToDo.withSub_withSub, ToDo.withSub_self]

theorem arrive_up {num tabs : Nat} (h : num < tabs) (st : PState) :
    arrive num tabs st = .ok (ancestor (tabs - num) st) := by
  unfold arrive
  rw [if_neg (by omega), if_pos h]

theorem fill_children_cons (line : List Char) (ls : List (List Char)) (tabs : Nat)
    (st : PState) :
    fill_children (line :: ls) tabs st
      = (match arrive (tab_num line) tabs st with
         | .error e => .error e
         | .ok st1 =>
             match from_string (trimStart line) with
             | none => .error .fatal
             | some todo => fill_children ls (tab_num line) (addChild st1 todo)) := rfl

theorem lineBody_mk (k : Nat) (tx : List Char) (c : Bool) (p : Option Priority)
    (s : List ToDo) :
    lineBody k (ToDo.mk tx c p s) = pad k ++ completeMarker c ++ priorityMarker p ++ tx := rfl

theorem rt_mk (tx : List Char) (c : Bool) (p : Option Priority) (s : List ToDo) :
    rt (ToDo.mk tx c p s) = ToDo.mk (rtTask tx) c p (rtList s) := by
  simp [rt]

theorem rtList_nil : rtList [] = [] := by
  simp [rtList]

theorem rtList_cons (t : ToDo) (ts : List ToDo) : rtList (t :: ts) = rt t :: rtList ts := by
  simp [rtList]

theorem bodiesF_nil (k : Nat) : bodiesF k [] = [] := by
  simp [bodiesF]

theorem bodiesF_cons (k : Nat) (tx : List Char) (c : Bool) (p : Option Priority)
    (s : List ToDo) (ts : List ToDo) :
    bodiesF k (ToDo.mk tx c p s :: ts)
      = lineBody k (ToDo.mk tx c p s) :: (bodiesF (k + 1) s ++ bodiesF k ts) := by
  simp [bodiesF]

/-- Main simulation lemma for the round trip: running `fill_children` over
the (CR-stripped) serialised bodies of a non-empty forest, from any state
that the depth-`k` arrival step maps to `(c, anc)`, appends the
round-tripped forest to `c` and continues with the remaining lines; the
final state is the same as `(c ⧺ rt ts, anc)` up to ancestor walks and
collapse. -/
theorem fill_children_bodies :
    ∀ ts : List ToDo, ts ≠ [] →
    ∀ (k tabs : Nat) (st : PState) (c : ToDo) (anc : List ToDo)
      (rest : List (List Char)),
      arrive k tabs st = .ok (c, anc) →
      ∃ tabs' st',
        fill_children ((bodiesF k ts).map stripCr ++ rest) tabs st
          = fill_children rest tabs' st'
        ∧ k ≤ tabs'
        ∧ (∀ j, j ≤ k → ancestor (tabs' - j) st'
              = ancestor (k - j) (c.withSub (c.sub_tasks ++ rtList ts), anc))
        ∧ collapse st' = collapse (c.withSub (c.sub_tasks ++ rtList ts), anc) := by
  have key : ∀ N ts, sizeOf ts ≤ N → ts ≠ [] →
      ∀ (k tabs : Nat) (st : PState) (c : ToDo) (anc : List ToDo)
        (rest : List (List Char)),
        arrive k tabs st = .ok (c, anc) →
        ∃ tabs' st',
          fill_children ((bodiesF k ts).map stripCr ++ rest) tabs st
            = fill_children rest tabs' st'
          ∧ k ≤ tabs'
          ∧ (∀ j, j ≤ k → ancestor (tabs' - j) st'
                = ancestor (k - j) (c.withSub (c.sub_tasks ++ rtList ts), anc))
          ∧ collapse st' = collapse (c.withSub (c.sub_tasks ++ rtList ts), anc) := by
    intro N
    induction N with
    | zero =>
        intro ts h hne
        cases ts with
        | nil => exact absurd rfl hne
        | cons t ts' =>
            exfalso
            cases t
            simp only [List.cons.sizeOf_spec, ToDo.mk.sizeOf_spec] at h
            omega
    | succ N ih =>
        intro ts hsz hne
        cases ts with
        | nil => exact absurd rfl hne
        | cons t ts' =>
          cases t with
          | mk tx cm pr subs =>
            intro k tabs st c anc rest harr
            have hszs : sizeOf subs ≤ N ∧ sizeOf ts' ≤ N := by
              simp only [List.cons.sizeOf_spec, ToDo.mk.sizeOf_spec] at hsz
              omega
            -- the first line of the serialised forest
            have hline : stripCr (lineBody k (ToDo.mk tx cm pr subs))
                = pad k ++ completeMarker cm ++ priorityMarker pr ++ rtTask tx := by
              have h := stripCr_lineBody k (ToDo.mk tx cm pr subs)
              simpa using h
            have htab : tab_num (stripCr (lineBody k (ToDo.mk tx cm pr subs))) = k := by
              rw [hline]
              exact tab_num_marked k cm pr (rtTask tx)
            have hfrom : from_string (trimStart (stripCr (lineBody k (ToDo.mk tx cm pr subs))))
                = some (ToDo.mk (rtTask tx) cm pr []) := by
              rw [hline, trimStart_marked, from_string_marked]
            -- process the first line
            have hstep :
                fill_children ((bodiesF k (ToDo.mk tx cm pr subs :: ts')).map stripCr ++ rest)
                    tabs st
                  = fill_children
                      ((bodiesF (k + 1) subs).map stripCr
                        ++ ((bodiesF k ts').map stripCr ++ rest))
                      k
                      (c.withSub (c.sub_tasks ++ [ToDo.mk (rtTask tx) cm pr []]), anc) := by
              rw [bodiesF_cons, List.map_cons, List.cons_append, fill_children_cons,
                  htab, harr, hfrom]
              simp [addChild, List.map_append, List.append_assoc]
            rcases Classical.em (subs = []) with hsubs | hsubs
            · -- leaf first tree: the appended node is already `rt t`
              subst hsubs
              rw [bodiesF_nil] at hstep
              simp only [List.map_nil, List.nil_append] at hstep
              rcases Classical.em (ts' = []) with hts' | hts'
              · subst hts'
                refine ⟨k, (c.withSub (c.sub_tasks ++ [ToDo.mk (rtTask tx) cm pr []]), anc),
                  ?_, le_rfl, ?_, ?_⟩
                · rw [hstep, bodiesF_nil]
                  simp
                · intro j hj
                  rw [rtList_cons, rtList_nil, rt_mk, rtList_nil]
                · rw [rtList_cons, rtList_nil, rt_mk, rtList_nil]
              · -- siblings remain: recurse on ts' from the same depth
                obtain ⟨tabs2, st2, heq2, hk2, hanc2, hcol2⟩ :=
                  ih ts' hszs.2 hts' k k
                    (c.withSub (c.sub_tasks ++ [ToDo.mk (rtTask tx) cm pr []]), anc)
                    (c.withSub (c.sub_tasks ++ [ToDo.mk (rtTask tx) cm pr []])) anc rest
                    (arrive_self k _)
                refine ⟨tabs2, st2, ?_, hk2, ?_, ?_⟩
                · rw [hstep, heq2]
                · intro j hj
                  rw [hanc2 j hj, ToDo.withSub_withSub, ToDo.sub_tasks_withSub,
                      List.append_assoc, rtList_cons, rt_mk, rtList_nil]
                  rfl
                · rw [hcol2, ToDo.withSub_withSub, ToDo.sub_tasks_withSub,
                      List.append_assoc, rtList_cons, rt_mk, rtList_nil]
                  rfl
            · -- the first tree has children: descend into it
              obtain ⟨tabs1, st1, heq1, hk1, hanc1, hcol1⟩ :=
                ih subs hszs.1 hsubs (k + 1) k
                  (c.withSub (c.sub_tasks ++ [ToDo.mk (rtTask tx) cm pr []]), anc)
                  (ToDo.mk (rtTask tx) cm pr []) (c :: anc)
                  ((bodiesF k ts').map stripCr ++ rest)
                  (arrive_descend k c _ anc)
              have hB1 : (ToDo.mk (rtTask tx) cm pr []).withSub
                    ((ToDo.mk (rtTask tx) cm pr []).sub_tasks ++ rtList subs)
                  = rt (ToDo.mk tx cm pr subs) := by
                rw [rt_mk]
                rfl
              rw [hB1] at hanc1 hcol1
              have hup : ancestor (tabs1 - k) st1
                  = (c.withSub (c.sub_tasks ++ [rt (ToDo.mk tx cm pr subs)]), anc) := by
                have h := hanc1 k (by omega)
                have hrw : tabs1 - k = tabs1 - (k + 1) + 1 := by omega
                have h1k : k + 1 - k = 1 := by omega
                rw [h1k] at h
                rw [h, ancestor_one_cons]
              rcases Classical.em (ts' = []) with hts' | hts'
              · subst hts'
                rw [bodiesF_nil] at heq1
                simp only [List.map_nil, List.nil_append] at heq1
                refine ⟨tabs1, st1, ?_, by omega, ?_, ?_⟩
                · rw [hstep, bodiesF_nil]
                  simp only [List.map_nil, List.nil_append]
                  exact heq1
                · intro j hj
                  have h := hanc1 j (by omega)
                  have hsplit : tabs1 - j = (tabs1 - j) := rfl
                  have h2 : k + 1 - j = (k - j) + 1 := by omega
                  rw [h2] at h
                  rw [h, ancestor_succ, ancestor_one_cons, rtList_cons, rtList_nil]
                · rw [hcol1, collapse_cons, rtList_cons, rtList_nil]
              · obtain ⟨tabs2, st2, heq2, hk2, hanc2, hcol2⟩ :=
                  ih ts' hszs.2 hts' k tabs1 st1
                    (c.withSub (c.sub_tasks ++ [rt (ToDo.mk tx cm pr subs)])) anc rest
                    (by rw [arrive_up (by omega) st1, hup])
                refine ⟨tabs2, st2, ?_, hk2, ?_, ?_⟩
                · rw [hstep, heq1, heq2]
                · intro j hj
                  rw [hanc2 j hj, ToDo.withSub_withSub, ToDo.sub_tasks_withSub,
                      List.append_assoc, rtList_cons]
                  rfl
                · rw [hcol2, ToDo.withSub_withSub, ToDo.sub_tasks_withSub,
                      List.append_assoc, rtList_cons]
                  rfl
  intro ts
  exact key (sizeOf ts) ts le_rfl

/-! ## Support lemmas: erasure and the text condition -/

theorem strip_mk (tx : List Char) (c : Bool) (p : Option Priority) (s : List ToDo) :
    strip (ToDo.mk tx c p s) = STree.mk c p (stripList s) := by
  simp [strip]

theorem stripList_nil : stripList [] = [] := by
  simp [stripList]

theorem stripList_cons (t : ToDo) (ts : List ToDo) :
    stripList (t :: ts) = strip t :: stripList ts := by
  simp [stripList]

theorem stripList_rtList : ∀ ts : List ToDo, stripList (rtList ts) = stripList ts := by
  refine forest_ind ?_ ?_
  · rw [rtList_nil]
  · intro tx c p s ts ihs ihts
    rw [rtList_cons, rt_mk, stripList_cons, stripList_cons, strip_mk, strip_mk, ihs, ihts]

theorem goodTask_no_newline {tx : List Char} (h : goodTask tx = true) :
    ∀ ch ∈ tx, ¬ ch = '\n' := by
  have h' := (Bool.and_eq_true _ _).mp h
  intro ch hch
  have := List.all_eq_true.mp h'.1 ch hch
  simpa using this

theorem completeMarker_no_newline (c : Bool) : ∀ ch ∈ completeMarker c, ¬ ch = '\n' := by
  cases c <;> decide

theorem priorityMarker_no_newline (p : Option Priority) :
    ∀ ch ∈ priorityMarker p, ¬ ch = '\n' := by
  rcases p with _ | q
  · decide
  · cases q <;> decide

theorem goodL_cons {tx : List Char} {c : Bool} {p : Option Priority} {s ts : List ToDo}
    (h : goodL (ToDo.mk tx c p s :: ts) = true) :
    goodTask tx = true ∧ goodL s = true ∧ goodL ts = true := by
  have h1 : (goodT (ToDo.mk tx c p s) && goodL ts) = true := by
    rw [show goodL (ToDo.mk tx c p s :: ts) = (goodT (ToDo.mk tx c p s) && goodL ts)
        from by simp [goodL]] at h
    exact h
  have h2 := (Bool.and_eq_true _ _).mp h1
  have h3 : (goodTask tx && goodL s) = true := by
    rw [show goodT (ToDo.mk tx c p s) = (goodTask tx && goodL s) from by simp [goodT]] at h2
    exact h2.1
  have h4 := (Bool.and_eq_true _ _).mp h3
  exact ⟨h4.1, h4.2, h2.2⟩

theorem bodiesF_no_newline :
    ∀ ts : List ToDo, goodL ts = true → ∀ (k : Nat), ∀ l ∈ bodiesF k ts,
      ∀ ch ∈ l, ¬ ch = '\n' := by
  refine forest_ind ?_ ?_
  · intro _ k l hl
    rw [bodiesF_nil] at hl
    cases hl
  · intro tx c p s ts ihs ihts hg k l hl
    obtain ⟨hgt, hgs, hgts⟩ := goodL_cons hg
    rw [bodiesF_cons] at hl
    rcases List.mem_cons.mp hl with rfl | hl'
    · intro ch hch
      rw [lineBody_mk] at hch
      rcases List.mem_append.mp hch with h1 | htx
      · rcases List.mem_append.mp h1 with h2 | hpm
        · rcases List.mem_append.mp h2 with hpad | hcm
          · have := List.eq_of_mem_replicate hpad
            subst this
            decide
          · exact completeMarker_no_newline c ch hcm
        · exact priorityMarker_no_newline p ch hpm
      · exact goodTask_no_newline hgt ch htx
    · rcases List.mem_append.mp hl' with h1 | h2
      · exact ihs hgs (k + 1) l h1
      · exact ihts hgts k l h2

/-! ## Claim theorems: the codec -/

/-- C1: for every task forest whose texts contain no newline and no leading
space (exactly the trees buildable through `add`, `toggle_complete` and
`change_priority`), decoding the serialisation succeeds, and the decoded
tree has the same shape, the same `complete` flags, the same priorities and
the same child order as the original (`strip` erases exactly the task
texts). -/
theorem c1_round_trip (ts : List ToDo) (hgood : goodL ts = true) :
    ∃ u : ToDo, decode (all_to_string 0 (ToDo.mk [] false none ts)) = .ok u
      ∧ strip u = strip (ToDo.mk [] false none ts) := by
  have hlines : rlines (all_to_string 0 (ToDo.mk [] false none ts))
      = (bodiesF 0 ts).map stripCr := by
    rw [show all_to_string 0 (ToDo.mk [] false none ts) = allToStringList 0 ts from rfl,
        allToStringList_eq_joinNl]
    exact rlines_joinNl _ (fun l hl ch hch hne => bodiesF_no_newline ts hgood 0 l hl ch hch hne)
  rcases Classical.em (ts = []) with hts | hts
  · subst hts
    refine ⟨emptyRoot, ?_, ?_⟩
    · unfold decode
      rw [hlines, bodiesF_nil]
      rfl
    · rfl
  · obtain ⟨tabs', st', heq, _, _, hcol⟩ :=
      fill_children_bodies ts hts 0 0 (emptyRoot, []) emptyRoot [] [] (arrive_self 0 _)
    rw [List.append_nil] at heq
    refine ⟨ToDo.mk [] false none (rtList ts), ?_, ?_⟩
    · unfold decode
      rw [hlines, heq]
      rw [show fill_children [] tabs' st' = .ok st' from rfl]
      show Except.ok (collapse st') = Except.ok (ToDo.mk [] false none (rtList ts))
      rw [show collapse st' = ToDo.mk [] false none (rtList ts) from by rw [hcol]; rfl]
    · rw [strip_mk, strip_mk, stripList_rtList]

/-- Witness for C1: a concrete two-level tree with flags and priorities
round-trips up to text erasure. -/
theorem c1_round_trip_witness :
    goodL [ToDo.mk ['a'] true (some .high) [ToDo.mk ['b'] false none []],
           ToDo.mk ['c'] false (some .medium) []] = true
    ∧ ∃ u : ToDo,
        decode (all_to_string 0 (ToDo.mk [] false none
          [ToDo.mk ['a'] true (some .high) [ToDo.mk ['b'] false none []],
           ToDo.mk ['c'] false (some .medium) []])) = .ok u
        ∧ strip u = strip (ToDo.mk [] false none
          [ToDo.mk ['a'] true (some .high) [ToDo.mk ['b'] false none []],
           ToDo.mk ['c'] false (some .medium) []]) :=
  ⟨by decide, c1_round_trip _ (by decide)⟩

/-- C2: whenever `fill_children` fails with a `MalformedSave` error, the
view built by `View::new_from_save` holds a fresh empty root: no node
parsed from any prefix of the input remains reachable from it. -/
theorem c2_malformed_discards_tree (buf : List Char)
    (h : isMalformed (fill_children (rlines buf) 0 (emptyRoot, [])) = true) :
    new_from_save_root buf = some emptyRoot ∧ emptyRoot.sub_tasks = [] := by
  unfold new_from_save_root
  cases hfc : fill_children (rlines buf) 0 (emptyRoot, []) with
  | ok st =>
      rw [hfc] at h
      simp [isMalformed] at h
  | error e =>
      cases e with
      | childWithoutParent => exact ⟨rfl, rfl⟩
      | tooMuchIndentation => exact ⟨rfl, rfl⟩
      | fatal =>
          rw [hfc] at h
          simp [isMalformed] at h

/-- Witness for C2: a save file whose first line parses but whose second
line jumps three indentation levels is `MalformedSave`, and the resulting
view holds an empty root. -/
theorem c2_malformed_discards_tree_witness :
    isMalformed (fill_children
        (rlines ("[ ] ( ) a\n            [ ] ( ) b".toList)) 0 (emptyRoot, [])) = true
    ∧ (new_from_save_root ("[ ] ( ) a\n            [ ] ( ) b".toList) = some emptyRoot
        ∧ emptyRoot.sub_tasks = []) :=
  ⟨by decide, c2_malformed_discards_tree _ (by decide)⟩

/-! ## Support lemmas and claim theorems: the `MalformedSave` conditions -/

theorem from_string_isSome {l : List Char} (h : ok8 l = true) :
    ∃ nd, from_string (trimStart l) = some nd := by
  unfold ok8 at h
  obtain ⟨task, htask⟩ := Option.isSome_iff_exists.mp h
  rw [from_string_byteDrop, htask]
  exact ⟨_, rfl⟩

/-- Running `fill_children` from any state whose current node already has a
sub-task (which holds as soon as one line has been added) fails with
`MalformedSave` exactly when some line's depth jumps more than one level
above the previous line's depth, and succeeds otherwise — provided no line
makes `from_string` panic. -/
theorem fill_children_run :
    ∀ (ls : List (List Char)) (tabs : Nat) (st : PState),
      st.1.sub_tasks ≠ [] → (∀ l ∈ ls, ok8 l = true) →
      (isMalformed (fill_children ls tabs st) = true
          ↔ depthsBad tabs (ls.map tab_num) = true)
      ∧ (depthsBad tabs (ls.map tab_num) = false
          → isOkE (fill_children ls tabs st) = true) := by
  intro ls
  induction ls with
  | nil =>
      intro tabs st _ _
      refine ⟨?_, fun _ => rfl⟩
      simp [fill_children, isMalformed, depthsBad]
  | cons l ls' ih =>
      intro tabs st hc hok
      obtain ⟨nd, hnd⟩ := from_string_isSome (hok l (List.mem_cons_self l ls'))
      have hok' : ∀ m ∈ ls', ok8 m = true := fun m hm => hok m (List.mem_cons_of_mem l hm)
      by_cases h2 : tab_num l > tabs + 1
      · have harr : arrive (tab_num l) tabs st = .error .tooMuchIndentation := by
          unfold arrive
          rw [if_neg (by omega), if_neg (by omega), if_pos h2]
        rw [fill_children_cons, harr]
        refine ⟨⟨fun _ => ?_, fun _ => rfl⟩, fun hdep => ?_⟩
        · simp only [List.map_cons, depthsBad, Bool.or_eq_true, decide_eq_true_eq]
          exact Or.inl h2
        · exfalso
          simp only [List.map_cons, depthsBad, Bool.or_eq_false_iff,
            decide_eq_false_iff_not] at hdep
          exact hdep.1 h2
      · have harr : ∃ st1 : PState, arrive (tab_num l) tabs st = .ok st1 := by
          by_cases h1 : tab_num l = tabs + 1
          · obtain ⟨x, hx⟩ := Option.isSome_iff_exists.mp
              ((List.getLast?_isSome).mpr hc)
            unfold arrive
            rw [if_pos h1, hx]
            exact ⟨_, rfl⟩
          · by_cases h3 : tab_num l < tabs
            · exact ⟨_, arrive_up h3 st⟩
            · have heq : tab_num l = tabs := by omega
              rw [heq]
              exact ⟨_, arrive_self tabs st⟩
        obtain ⟨st1, hst1⟩ := harr
        have hsub1 : (addChild st1 nd).1.sub_tasks ≠ [] := by
          unfold addChild
          rw [ToDo.sub_tasks_withSub]
          simp
        have hdeq : depthsBad tabs ((l :: ls').map tab_num)
            = depthsBad (tab_num l) (ls'.map tab_num) := by
          simp only [List.map_cons, depthsBad]
          simp [h2]
        rw [fill_children_cons, hst1, hnd]
        dsimp only
        rw [hdeq]
        exact ih (tab_num l) (addChild st1 nd) hsub1 hok'

/-- C3 (amended): for inputs in which no line makes `from_string` panic
(each line has at least 8 bytes after trimming, with byte 8 on a character
boundary), decoding fails with `MalformedSave` iff either some line's
depth exceeds the previous line's depth plus one, or the first line has
depth 1 (a child line with no parent line before it); all other such
inputs decode successfully.  Depth is the count of leading spaces divided
by 4. -/
theorem c3_malformed_characterisation :
    ∀ ls : List (List Char), (∀ l ∈ ls, ok8 l = true) →
      ((isMalformed (fillRoot ls) = true
          ↔ ((ls.map tab_num).head? = some 1 ∨ depthsBad 0 (ls.map tab_num) = true))
        ∧ (¬((ls.map tab_num).head? = some 1 ∨ depthsBad 0 (ls.map tab_num) = true)
            → isOkE (fillRoot ls) = true)
        ∧ (∀ l : List Char, tab_num l = leadingSpaces l / 4)) := by
  intro ls hok
  cases ls with
  | nil =>
      refine ⟨?_, fun _ => rfl, fun l => rfl⟩
      simp [fillRoot, fill_children, isMalformed, depthsBad]
  | cons l ls' =>
      obtain ⟨nd, hnd⟩ := from_string_isSome (hok l (List.mem_cons_self l ls'))
      have hok' : ∀ m ∈ ls', ok8 m = true := fun m hm => hok m (List.mem_cons_of_mem l hm)
      by_cases h1 : tab_num l = 1
      · have harr : arrive (tab_num l) 0 (emptyRoot, []) = .error .childWithoutParent := by
          unfold arrive
          rw [if_pos (by omega)]
          rfl
        refine ⟨?_, ?_, fun l => rfl⟩
        · unfold fillRoot
          rw [fill_children_cons, harr]
          refine ⟨fun _ => Or.inl (by simp [h1]), fun _ => rfl⟩
        · intro hcon
          exact absurd (Or.inl (by simp [h1])) hcon
      · by_cases h2 : tab_num l > 1
        · have harr : arrive (tab_num l) 0 (emptyRoot, []) = .error .tooMuchIndentation := by
            unfold arrive
            rw [if_neg (by omega), if_neg (by omega), if_pos (by omega)]
          have hbad : depthsBad 0 ((l :: ls').map tab_num) = true := by
            simp only [List.map_cons, depthsBad, Bool.or_eq_true, decide_eq_true_eq]
            exact Or.inl (by omega)
          refine ⟨?_, ?_, fun l => rfl⟩
          · unfold fillRoot
            rw [fill_children_cons, harr]
            exact ⟨fun _ => Or.inr hbad, fun _ => rfl⟩
          · intro hcon
            exact absurd (Or.inr hbad) hcon
        · have h0 : tab_num l = 0 := by omega
          have harr : arrive (tab_num l) 0 (emptyRoot, []) = .ok (emptyRoot, []) := by
            rw [h0]
            exact arrive_self 0 _
          have hsub : (addChild (emptyRoot, []) nd).1.sub_tasks ≠ [] := by
            unfold addChild
            rw [ToDo.sub_tasks_withSub]
            simp
          have hrun := fill_children_run ls' (tab_num l) (addChild (emptyRoot, []) nd) hsub hok'
          have hkey : depthsBad 0 ((l :: ls').map tab_num)
              = depthsBad (tab_num l) (ls'.map tab_num) := by
            simp only [List.map_cons, depthsBad]
            rw [h0]
            simp
          have hhead : ((l :: ls').map tab_num).head? = some (tab_num l) := rfl
          refine ⟨?_, ?_, fun l => rfl⟩
          · unfold fillRoot
            rw [fill_children_cons, harr, hnd]
            dsimp only
            rw [hrun.1, hhead, hkey, h0]
            constructor
            · intro h
              exact Or.inr h
            · intro h
              rcases h with h | h
              · exact absurd h (by simp)
              · exact h
          · intro hcon
            unfold fillRoot
            rw [fill_children_cons, harr, hnd]
            dsimp only
            apply hrun.2
            cases hdb : depthsBad (tab_num l) (ls'.map tab_num) with
            | false => rfl
            | true =>
                exfalso
                exact hcon (Or.inr (by rw [hkey, hdb]))

/-- Counterexample to C3 as stated: on the single line `"x"` neither of
the two `MalformedSave` conditions holds, yet decoding does not succeed —
`from_string` panics slicing `&text[8..]` of a 1-byte line. -/
theorem c3_counterexample :
    isOkE (fillRoot [['x']]) = false
    ∧ isMalformed (fillRoot [['x']]) = false
    ∧ ¬ (([['x']].map tab_num).head? = some 1)
    ∧ depthsBad 0 ([['x']].map tab_num) = false := by
  decide

/-- Witness for the amended C3: a two-line file, child indented one level,
has no bad depth jump and decodes successfully. -/
theorem c3_malformed_characterisation_witness :
    (∀ l ∈ [("[ ] ( ) a".toList), ("    [ ] ( ) b".toList)], ok8 l = true)
    ∧ ((isMalformed (fillRoot [("[ ] ( ) a".toList), ("    [ ] ( ) b".toList)]) = true
          ↔ (([("[ ] ( ) a".toList), ("    [ ] ( ) b".toList)].map tab_num).head? = some 1
              ∨ depthsBad 0 ([("[ ] ( ) a".toList), ("    [ ] ( ) b".toList)].map tab_num)
                  = true))
        ∧ (¬(([("[ ] ( ) a".toList), ("    [ ] ( ) b".toList)].map tab_num).head? = some 1
              ∨ depthsBad 0 ([("[ ] ( ) a".toList), ("    [ ] ( ) b".toList)].map tab_num)
                  = true)
            → isOkE (fillRoot [("[ ] ( ) a".toList), ("    [ ] ( ) b".toList)]) = true)
        ∧ (∀ l : List Char, tab_num l = leadingSpaces l / 4)) :=
  ⟨by decide, c3_malformed_characterisation _ (by decide)⟩

/-! ## Claim theorems: sorting, priority ladder, short lines -/

/-- C7: `sort_by_priority` permutes only the node's direct children,
ordering them descending by priority (`None` below `Low`), stably: the
subsequence of children at each fixed priority is unchanged.  On children
with priorities `[None, High, Medium, High, None]` it yields the two
`High` items in original order, then `Medium`, then the two `None` items
in original order. -/
theorem c7_sort_children_stable :
    (∀ t : ToDo,
      (sort_by_priority t).task = t.task ∧
      (sort_by_priority t).complete = t.complete ∧
      (sort_by_priority t).priority = t.priority ∧
      List.Perm (sort_by_priority t).sub_tasks t.sub_tasks ∧
      List.Pairwise (fun a b => priorityCmp b.priority a.priority ≠ .gt)
        (sort_by_priority t).sub_tasks ∧
      (∀ p : Option Priority,
        (sort_by_priority t).sub_tasks.filter (fun c => c.priority == p)
          = t.sub_tasks.filter (fun c => c.priority == p))) ∧
    sort_by_priority (ToDo.mk [] false none
        [ToDo.mk ['a'] false none [], ToDo.mk ['b'] false (some .high) [],
         ToDo.mk ['c'] false (some .medium) [], ToDo.mk ['d'] false (some .high) [],
         ToDo.mk ['e'] false none []])
      = ToDo.mk [] false none
        [ToDo.mk ['b'] false (some .high) [], ToDo.mk ['d'] false (some .high) [],
         ToDo.mk ['c'] false (some .medium) [], ToDo.mk ['a'] false none [],
         ToDo.mk ['e'] false none []] := by
  constructor
  · intro t
    refine ⟨?_, ?_, ?_, ?_, ?_, ?_⟩
    · cases t; rfl
    · cases t; rfl
    · cases t; rfl
    · have h := sortByOrd_perm subTaskCmp t.sub_tasks
      cases t
      exact h
    · have h := sortByOrd_pairwise
        (fun a b => priorityCmp_gt_asym b.priority a.priority)
        (fun a b c hab hbc =>
          priorityCmp_not_gt_trans c.priority b.priority a.priority hbc hab)
        t.sub_tasks
      cases t
      exact h
    · intro p
      have h := sortByOrd_filter_priority p t.sub_tasks
      cases t
      exact h
  · rfl

/-- C9: the priority ladder of `View::increase_priority` and
`View::decrease_priority` walks `None < Low < Medium < High` one step per
call and saturates at both ends: from `None` exactly 3 increases reach
`High` and further increases stay at `High`; from `High` exactly 3
decreases reach `None` and further decreases stay at `None`. -/
theorem c9_priority_ladder_saturation :
    incPriority^[3] none = some Priority.high ∧
    incPriority^[1] none ≠ some Priority.high ∧
    incPriority^[2] none ≠ some Priority.high ∧
    (∀ n : Nat, incPriority^[n + 3] none = some Priority.high) ∧
    decPriority^[3] (some Priority.high) = none ∧
    decPriority^[1] (some Priority.high) ≠ none ∧
    decPriority^[2] (some Priority.high) ≠ none ∧
    (∀ n : Nat, decPriority^[n + 3] (some Priority.high) = none) := by
  refine ⟨rfl, by decide, by decide, ?_, rfl, by decide, by decide, ?_⟩
  · intro n
    rw [Function.iterate_add_apply]
    exact Function.iterate_fixed rfl n
  · intro n
    rw [Function.iterate_add_apply]
    exact Function.iterate_fixed rfl n

/-- C6 (code bug): the claim says a line shorter than 8 characters after
trimming is decoded with `complete = false` and `priority = None` and never
fails, but `ToDo::from_string` takes `&text[8..]`, whose byte slicing
panics on the 7-character line `"[ ] ( )"`; the panic propagates out of
`View::fill_children`. -/
theorem c6_short_line_is_fatal :
    from_string ("[ ] ( )".toList) = none ∧
    fill_children [("[ ] ( )".toList)] 0 (emptyRoot, []) = .error .fatal := by
  exact ⟨rfl, rfl⟩

/-! ## Support lemmas: paths and mutation in the navigation tree -/

@[simp] theorem TaskNode.nid_mk (i t c p q cs) : (TaskNode.mk i t c p q cs).nid = i := rfl

@[simp] theorem TaskNode.taskOf_mk (i t c p q cs) : (TaskNode.mk i t c p q cs).task = t := rfl

@[simp] theorem TaskNode.parentId_mk (i t c p q cs) :
    (TaskNode.mk i t c p q cs).parentId = q := rfl

@[simp] theorem TaskNode.children_mk (i t c p q cs) :
    (TaskNode.mk i t c p q cs).children = cs := rfl

@[simp] theorem TaskNode.children_withChildren (t : TaskNode) (cs : List TaskNode) :
    (t.withChildren cs).children = cs := by
  cases t
  rfl

@[simp] theorem TaskNode.nid_withChildren (t : TaskNode) (cs : List TaskNode) :
    (t.withChildren cs).nid = t.nid := by
  cases t
  rfl

@[simp] theorem TaskNode.parentId_withChildren (t : TaskNode) (cs : List TaskNode) :
    (t.withChildren cs).parentId = t.parentId := by
  cases t
  rfl

theorem getElem?_lt {α : Type _} {l : List α} {i : Nat} {a : α} (h : l[i]? = some a) :
    i < l.length := by
  by_contra hc
  rw [List.getElem?_eq_none (by omega)] at h
  cases h

theorem length_setChild (l : List TaskNode) (i : Nat) (g : TaskNode → TaskNode) :
    (setChild l i g).length = l.length := by
  unfold setChild
  cases h : l[i]? <;> simp

theorem length_listSwap {α : Type _} (l : List α) (i j : Nat) :
    (listSwap l i j).length = l.length := by
  unfold listSwap
  cases h1 : l[i]? <;> cases h2 : l[j]? <;> simp

theorem getAt_nil (t : TaskNode) : getAt t [] = some t := rfl

theorem getAt_cons (t : TaskNode) (i : Nat) (p : List Nat) :
    getAt t (i :: p)
      = (match t.children[i]? with
         | none => none
         | some c => getAt c p) := rfl

theorem getAt_append (p : List Nat) :
    ∀ (t : TaskNode) (i : Nat),
      getAt t (p ++ [i]) = (getAt t p).bind (fun c => c.children[i]?) := by
  induction p with
  | nil =>
      intro t i
      rw [List.nil_append, getAt_nil, Option.some_bind, getAt_cons]
      cases h : t.children[i]? with
      | none => rfl
      | some c =>
          dsimp only
          rfl
  | cons j q ih =>
      intro t i
      rw [List.cons_append, getAt_cons, getAt_cons]
      cases h : t.children[j]? with
      | none => rfl
      | some c =>
          dsimp only
          exact ih c i

theorem modifyAt_spec (p : List Nat) :
    ∀ (t : TaskNode) (f : TaskNode → TaskNode) (cur : TaskNode),
      getAt t p = some cur →
      ∃ t', modifyAt t p f = some t' ∧ getAt t' p = some (f cur) := by
  induction p with
  | nil =>
      intro t f cur h
      rw [getAt_nil] at h
      injection h with h
      subst h
      exact ⟨f t, rfl, rfl⟩
  | cons i q ih =>
      intro t f cur h
      rw [getAt_cons] at h
      cases hc : t.children[i]? with
      | none =>
          rw [hc] at h
          cases h
      | some c =>
          rw [hc] at h
          obtain ⟨c', hc', hg'⟩ := ih c f cur h
          refine ⟨t.withChildren (t.children.set i c'), ?_, ?_⟩
          · simp only [modifyAt, hc, hc']
          · rw [getAt_cons, TaskNode.children_withChildren,
                List.getElem?_set_self (getElem?_lt hc)]
            dsimp only
            exact hg'

theorem frOk_cons_iff {i : Nat} {rp : List Nat} {sel : Option Nat} {b : Bool}
    {fr : List (Option Nat × Bool)} :
    frOk (i :: rp) ((sel, b) :: fr) = true
      ↔ (sel = some i ∧ b = rp.isEmpty ∧ frOk rp fr = true) := by
  simp [frOk, Bool.and_eq_true, and_assoc]

theorem frOk_cons_nil (i : Nat) (rp : List Nat) : frOk (i :: rp) [] = false := rfl

theorem isEmpty_reverse {α : Type _} (l : List α) : l.reverse.isEmpty = l.isEmpty := by
  cases l <;> simp

theorem exists_concat_of_ne_nil {α : Type _} {l : List α} (h : l ≠ []) :
    ∃ l' a, l = l' ++ [a] := by
  rcases List.eq_nil_or_concat l with h' | h'
  · exact absurd h' h
  · obtain ⟨L, b, hb⟩ := h'
    exact ⟨L, b, by simpa [List.concat_eq_append] using hb⟩

theorem selOkB_some {i n : Nat} : selOkB (some i) n = true ↔ i < n := by
  simp [selOkB]

theorem childCountAt_eq {t : TaskNode} {p : List Nat} {cur : TaskNode}
    (h : getAt t p = some cur) : childCountAt t p = cur.children.length := by
  unfold childCountAt
  rw [h]

theorem listSwap_getElem_fst {α : Type _} {l : List α} {i j : Nat} {a b : α}
    (hi : l[i]? = some a) (hj : l[j]? = some b) : (listSwap l i j)[i]? = some b := by
  unfold listSwap
  rw [hi, hj]
  dsimp only
  by_cases hij : i = j
  · subst hij
    rw [List.set_set, List.getElem?_set_self (getElem?_lt hi)]
    rw [hi] at hj
    injection hj with hj
    rw [hj]
  · rw [List.getElem?_set_ne (fun hji => hij hji.symm),
        List.getElem?_set_self (getElem?_lt hi)]

theorem valid_update (s : ViewSt) (tr : TaskNode) (sel : Option Nat) (nx : Nat)
    (hv : Valid s)
    (hpath : (getAt tr s.path).isSome = true)
    (hsel : selOkB sel (childCountAt tr s.path) = true) :
    Valid (ViewSt.mk tr s.path sel s.root s.frames nx) := by
  obtain ⟨_, _, hfr, hroot⟩ := hv
  exact ⟨hpath, hsel, hfr, hroot⟩

/-- C10: every navigation command preserves the selection-validity
invariant `Valid` (a `Some i` selection is always in range of the current
node's children, the path resolves, focus frames agree with the path);
moreover `add` selects the new last index, a confirmed `delete` resets the
selection, `move` keeps the selection on the moved child, and `back`
returns to the parent, where the restored selection is again valid. -/
theorem c10_navigation_invariant :
    ∀ (c : Cmd) (s : ViewSt), Valid s →
      ∃ s', step c s = some s' ∧ Valid s' ∧ stepClause c s s' := by
  intro c s hv
  obtain ⟨hpath, hsel, hfr, hroot⟩ := hv
  obtain ⟨cur, hcur⟩ := Option.isSome_iff_exists.mp hpath
  have hcnt : childCountAt s.tree s.path = cur.children.length := childCountAt_eq hcur
  cases c with
  | add text =>
      obtain ⟨tr, hmt, hgt⟩ := modifyAt_spec s.path s.tree
        (fun t => t.withChildren
          (t.children ++ [TaskNode.mk s.next text false none (some t.nid) []])) cur hcur
      have hcnt' : childCountAt tr s.path = cur.children.length + 1 := by
        rw [childCountAt_eq hgt]
        simp
      refine ⟨{ s with tree := tr, selection := some (childCountAt s.tree s.path), next := s.next + 1 }, ?_, ?_, ?_⟩
      · simp only [step, hmt]
      · refine valid_update s tr _ _ ⟨hpath, hsel, hfr, hroot⟩ ?_ ?_
        · rw [hgt]
          rfl
        · rw [selOkB_some, hcnt', hcnt]
          omega
      · exact ⟨rfl, by simp only [hcnt', hcnt]⟩
  | edit text =>
      cases hs : s.selection with
      | none =>
          refine ⟨s, ?_, ⟨hpath, hsel, hfr, hroot⟩, trivial⟩
          simp only [step, hs]
      | some i =>
          have hi : i < childCountAt s.tree s.path := by
            rw [hs] at hsel
            exact selOkB_some.mp hsel
          obtain ⟨tr, hmt, hgt⟩ := modifyAt_spec s.path s.tree
            (fun t => t.withChildren (setChild t.children i (fun c => c.withTask text)))
            cur hcur
          have hcnt' : childCountAt tr s.path = childCountAt s.tree s.path := by
            rw [childCountAt_eq hgt, hcnt]
            simp [length_setChild]
          refine ⟨{ s with tree := tr }, ?_, ?_, trivial⟩
          · simp only [step, hs, if_pos hi, hmt]
          · refine valid_update s tr _ _ ⟨hpath, hsel, hfr, hroot⟩ ?_ ?_
            · rw [hgt]
              rfl
            · rw [hcnt', hs, selOkB_some]
              exact hi
  | delete confirm =>
      cases hs : s.selection with
      | none =>
          refine ⟨s, ?_, ⟨hpath, hsel, hfr, hroot⟩, ?_⟩
          · simp only [step, hs]
          · cases confirm
            · trivial
            · intro h
              rw [hs] at h
              cases h
      | some i =>
          have hi : i < childCountAt s.tree s.path := by
            rw [hs] at hsel
            exact selOkB_some.mp hsel
          cases confirm with
          | false =>
              refine ⟨s, ?_, ⟨hpath, hsel, hfr, hroot⟩, trivial⟩
              simp only [step, hs, if_neg (by simp : ¬ False = true)]
              rfl
          | true =>
              obtain ⟨tr, hmt, hgt⟩ := modifyAt_spec s.path s.tree
                (fun t => t.withChildren (t.children.eraseIdx i)) cur hcur
              refine ⟨{ s with tree := tr, selection := none }, ?_, ?_, fun _ => rfl⟩
              · simp only [step, hs, if_pos hi, hmt]
                simp
              · refine valid_update s tr _ _ ⟨hpath, hsel, hfr, hroot⟩ ?_ rfl
                rw [hgt]
                rfl
  | taskUp =>
      cases hs : s.selection with
      | none =>
          refine ⟨s, ?_, ⟨hpath, hsel, hfr, hroot⟩, ?_⟩
          · simp only [step, hs]
          · intro i hi
            rw [hs] at hi
            cases hi
      | some i =>
          have hi : i < childCountAt s.tree s.path := by
            rw [hs] at hsel
            exact selOkB_some.mp hsel
          have hn0 : ¬ (childCountAt s.tree s.path = 0 ∨ childCountAt s.tree s.path ≤ i) := by
            omega
          obtain ⟨a, ha⟩ : ∃ a, cur.children[i]? = some a := by
            have : i < cur.children.length := by omega
            rw [List.getElem?_eq_getElem this]
            exact ⟨_, rfl⟩
          have hnew : (if i = 0 then childCountAt s.tree s.path - 1 else i - 1)
              < cur.children.length := by
            by_cases h0 : i = 0 <;> simp [h0] <;> omega
          obtain ⟨b, hb⟩ : ∃ b,
              cur.children[if i = 0 then childCountAt s.tree s.path - 1 else i - 1]?
                = some b := by
            rw [List.getElem?_eq_getElem hnew]
            exact ⟨_, rfl⟩
          obtain ⟨tr, hmt, hgt⟩ := modifyAt_spec s.path s.tree
            (fun t => t.withChildren
              (listSwap t.children (if i = 0 then childCountAt s.tree s.path - 1 else i - 1) i))
            cur hcur
          have hcnt' : childCountAt tr s.path = childCountAt s.tree s.path := by
            rw [childCountAt_eq hgt, hcnt]
            simp [length_listSwap]
          refine ⟨{ s with tree := tr, selection := some (if i = 0 then childCountAt s.tree s.path - 1 else i - 1) }, ?_, ?_, ?_⟩
          · simp only [step, hs, if_neg hn0, hmt]
          · refine valid_update s tr _ _ ⟨hpath, hsel, hfr, hroot⟩ ?_ ?_
            · rw [hgt]
              rfl
            · rw [hcnt', selOkB_some]
              omega
          · intro i' hi'
            rw [hs] at hi'
            injection hi' with hi'
            subst hi'
            refine ⟨if i = 0 then childCountAt s.tree s.path - 1 else i - 1, rfl, ?_⟩
            show (getAt tr s.path).bind _ = (getAt s.tree s.path).bind _
            rw [hgt, hcur, Option.some_bind, Option.some_bind,
                TaskNode.children_withChildren, ha]
            exact listSwap_getElem_fst hb ha
  | taskDown =>
      cases hs : s.selection with
      | none =>
          refine ⟨s, ?_, ⟨hpath, hsel, hfr, hroot⟩, ?_⟩
          · simp only [step, hs]
          · intro i hi
            rw [hs] at hi
            cases hi
      | some i =>
          have hi : i < childCountAt s.tree s.path := by
            rw [hs] at hsel
            exact selOkB_some.mp hsel
          have hn0 : ¬ (childCountAt s.tree s.path = 0 ∨ childCountAt s.tree s.path ≤ i) := by
            omega
          obtain ⟨a, ha⟩ : ∃ a, cur.children[i]? = some a := by
            have : i < cur.children.length := by omega
            rw [List.getElem?_eq_getElem this]
            exact ⟨_, rfl⟩
          have hnew : (if i = childCountAt s.tree s.path - 1 then 0 else i + 1)
              < cur.children.length := by
            by_cases h0 : i = childCountAt s.tree s.path - 1 <;> simp [h0] <;> omega
          obtain ⟨b, hb⟩ : ∃ b,
              cur.children[if i = childCountAt s.tree s.path - 1 then 0 else i + 1]?
                = some b := by
            rw [List.getElem?_eq_getElem hnew]
            exact ⟨_, rfl⟩
          obtain ⟨tr, hmt, hgt⟩ := modifyAt_spec s.path s.tree
            (fun t => t.withChildren
              (listSwap t.children (if i = childCountAt s.tree s.path - 1 then 0 else i + 1) i))
            cur hcur
          have hcnt' : childCountAt tr s.path = childCountAt s.tree s.path := by
            rw [childCountAt_eq hgt, hcnt]
            simp [length_listSwap]
          refine ⟨{ s with tree := tr, selection := some (if i = childCountAt s.tree s.path - 1 then 0 else i + 1) }, ?_, ?_, ?_⟩
          · simp only [step, hs, if_neg hn0, hmt]
          · refine valid_update s tr _ _ ⟨hpath, hsel, hfr, hroot⟩ ?_ ?_
            · rw [hgt]
              rfl
            · rw [hcnt', selOkB_some]
              omega
          · intro i' hi'
            rw [hs] at hi'
            injection hi' with hi'
            subst hi'
            refine ⟨if i = childCountAt s.tree s.path - 1 then 0 else i + 1, rfl, ?_⟩
            show (getAt tr s.path).bind _ = (getAt s.tree s.path).bind _
            rw [hgt, hcur, Option.some_bind, Option.some_bind,
                TaskNode.children_withChildren, ha]
            exact listSwap_getElem_fst hb ha
  | focus =>
      cases hs : s.selection with
      | none =>
          refine ⟨s, ?_, ⟨hpath, hsel, hfr, hroot⟩, trivial⟩
          simp only [step, hs]
      | some i =>
          have hi : i < childCountAt s.tree s.path := by
            rw [hs] at hsel
            exact selOkB_some.mp hsel
          obtain ⟨child, hchild⟩ : ∃ child, cur.children[i]? = some child := by
            have : i < cur.children.length := by omega
            rw [List.getElem?_eq_getElem this]
            exact ⟨_, rfl⟩
          have hga : getAt s.tree (s.path ++ [i]) = some child := by
            rw [getAt_append, hcur, Option.some_bind, hchild]
          refine ⟨{ s with path := s.path ++ [i], root := false, selection := if child.children.isEmpty then none else some 0, frames := (some i, s.root) :: s.frames }, ?_, ?_, trivial⟩
          · simp only [step, hs, hga]
          · refine ⟨?_, ?_, ?_, ?_⟩
            · show (getAt s.tree (s.path ++ [i])).isSome = true
              rw [hga]
              rfl
            · show selOkB (if child.children.isEmpty then none else some 0)
                  (childCountAt s.tree (s.path ++ [i])) = true
              rw [childCountAt_eq hga]
              cases hemp : child.children with
              | nil => rfl
              | cons x xs =>
                  rw [if_neg (by simp)]
                  rw [selOkB_some]
                  simp
            · show frOk (s.path ++ [i]).reverse ((some i, s.root) :: s.frames) = true
              rw [List.reverse_concat]
              rw [show s.path.reverse = s.path.reverse from rfl]
              rw [frOk_cons_iff ]
              refine ⟨rfl, ?_, hfr⟩
              rw [isEmpty_reverse]
              exact hroot
            · show false = (s.path ++ [i]).isEmpty
              simp
  | back =>
      cases hrt : s.root with
      | true =>
          refine ⟨s, ?_, ⟨hpath, hsel, hfr, hroot⟩, ?_⟩
          · simp only [step, hrt]
            simp
          · intro h
            rw [hrt] at h
            cases h
      | false =>
          have hne : s.path ≠ [] := by
            intro h
            rw [hrt, h] at hroot
            cases hroot
          cases hp : s.path with
          | nil => exact absurd hp hne
          | cons hd tl =>
              obtain ⟨p, i, hpi⟩ := exists_concat_of_ne_nil
                (show hd :: tl ≠ [] by simp)
              have hrev : (hd :: tl).reverse = i :: p.reverse := by
                rw [hpi, List.reverse_concat]
              rw [hp, hrev] at hfr
              cases hfs : s.frames with
              | nil =>
                  rw [hfs, frOk_cons_nil] at hfr
                  cases hfr
              | cons sb fr =>
                  obtain ⟨sel, b⟩ := sb
                  rw [hfs] at hfr
                  obtain ⟨hsel', hb, hfr'⟩ := frOk_cons_iff.mp hfr
                  have hgp : ∃ par, getAt s.tree p = some par ∧ par.children[i]? ≠ none := by
                    have h := hpath
                    rw [hp, hpi, getAt_append] at h
                    cases hgp : getAt s.tree p with
                    | none =>
                        rw [hgp] at h
                        cases h
                    | some par =>
                        rw [hgp, Option.some_bind] at h
                        refine ⟨par, rfl, ?_⟩
                        intro hnone
                        rw [hnone] at h
                        cases h
                  obtain ⟨par, hpar, hparc⟩ := hgp
                  refine ⟨{ s with path := s.path.dropLast, selection := sel, root := b, frames := fr }, ?_, ?_, fun _ => rfl⟩
                  · simp only [step]
                    rw [hrt, if_neg (by decide : ¬ false = true), hfs, hp]
                  · have hdrop : (hd :: tl).dropLast = p := by
                      rw [hpi, List.dropLast_concat]
                    refine ⟨?_, ?_, ?_, ?_⟩
                    · show (getAt s.tree (s.path.dropLast)).isSome = true
                      rw [hp, hdrop, hpar]
                      rfl
                    · show selOkB sel (childCountAt s.tree s.path.dropLast) = true
                      rw [hp, hdrop, childCountAt_eq hpar, hsel', selOkB_some]
                      have : par.children[i]?.isSome = true := by
                        cases hx : par.children[i]? with
                        | none => exact absurd hx hparc
                        | some y => rfl
                      cases hx : par.children[i]? with
                      | none => exact absurd hx hparc
                      | some y => exact getElem?_lt hx
                    · show frOk s.path.dropLast.reverse fr = true
                      rw [hp, hdrop]
                      exact hfr'
                    · show b = s.path.dropLast.isEmpty
                      rw [hp, hdrop, hb, isEmpty_reverse]
  | selUp =>
      cases hs : s.selection with
      | none =>
          cases hn : childCountAt s.tree s.path with
          | zero =>
              refine ⟨{ s with selection := none }, ?_, ?_, trivial⟩
              · simp only [step, hs, hn]
              · exact valid_update s s.tree none s.next ⟨hpath, hsel, hfr, hroot⟩ hpath rfl
          | succ m =>
              refine ⟨{ s with selection := some 0 }, ?_, ?_, trivial⟩
              · simp only [step, hs, hn]
              · refine valid_update s s.tree (some 0) s.next ⟨hpath, hsel, hfr, hroot⟩ hpath ?_
                rw [selOkB_some, hn]
                omega
      | some i =>
          have hi : i < childCountAt s.tree s.path := by
            rw [hs] at hsel
            exact selOkB_some.mp hsel
          by_cases h0 : i = 0
          · refine ⟨{ s with selection := some (i + childCountAt s.tree s.path - 1) }, ?_, ?_, trivial⟩
            · simp only [step, hs, if_pos h0, if_neg (by omega : ¬ childCountAt s.tree s.path = 0)]
            · refine valid_update s s.tree _ s.next ⟨hpath, hsel, hfr, hroot⟩ hpath ?_
              rw [selOkB_some]
              omega
          · refine ⟨{ s with selection := some (i - 1) }, ?_, ?_, trivial⟩
            · simp only [step, hs, if_neg h0]
            · refine valid_update s s.tree _ s.next ⟨hpath, hsel, hfr, hroot⟩ hpath ?_
              rw [selOkB_some]
              omega
  | selDown =>
      cases hs : s.selection with
      | none =>
          cases hn : childCountAt s.tree s.path with
          | zero =>
              refine ⟨{ s with selection := none }, ?_, ?_, trivial⟩
              · simp only [step, hs, hn]
              · exact valid_update s s.tree none s.next ⟨hpath, hsel, hfr, hroot⟩ hpath rfl
          | succ m =>
              refine ⟨{ s with selection := some 0 }, ?_, ?_, trivial⟩
              · simp only [step, hs, hn]
              · refine valid_update s s.tree (some 0) s.next ⟨hpath, hsel, hfr, hroot⟩ hpath ?_
                rw [selOkB_some, hn]
                omega
      | some i =>
          have hi : i < childCountAt s.tree s.path := by
            rw [hs] at hsel
            exact selOkB_some.mp hsel
          refine ⟨{ s with selection := some (if i + 1 ≥ childCountAt s.tree s.path then i + 1 - childCountAt s.tree s.path else i + 1) }, ?_, ?_, trivial⟩
          · simp only [step, hs]
          · refine valid_update s s.tree _ s.next ⟨hpath, hsel, hfr, hroot⟩ hpath ?_
            rw [selOkB_some]
            by_cases hc : i + 1 ≥ childCountAt s.tree s.path <;> simp [hc] <;> omega
  | complete =>
      cases hs : s.selection with
      | none =>
          refine ⟨s, ?_, ⟨hpath, hsel, hfr, hroot⟩, trivial⟩
          simp only [step, hs]
      | some i =>
          have hi : i < childCountAt s.tree s.path := by
            rw [hs] at hsel
            exact selOkB_some.mp hsel
          obtain ⟨tr, hmt, hgt⟩ := modifyAt_spec s.path s.tree
            (fun t => t.withChildren (setChild t.children i TaskNode.flipComplete)) cur hcur
          have hcnt' : childCountAt tr s.path = childCountAt s.tree s.path := by
            rw [childCountAt_eq hgt, hcnt]
            simp [length_setChild]
          refine ⟨{ s with tree := tr }, ?_, ?_, trivial⟩
          · simp only [step, hs, if_pos hi, hmt]
          · refine valid_update s tr _ _ ⟨hpath, hsel, hfr, hroot⟩ ?_ ?_
            · rw [hgt]
              rfl
            · rw [hcnt', hs, selOkB_some]
              exact hi
  | increase =>
      cases hs : s.selection with
      | none =>
          refine ⟨s, ?_, ⟨hpath, hsel, hfr, hroot⟩, trivial⟩
          simp only [step, hs]
      | some i =>
          have hi : i < childCountAt s.tree s.path := by
            rw [hs] at hsel
            exact selOkB_some.mp hsel
          obtain ⟨tr, hmt, hgt⟩ := modifyAt_spec s.path s.tree
            (fun t => t.withChildren (setChild t.children i (fun c => c.mapPriority incPriority)))
            cur hcur
          have hcnt' : childCountAt tr s.path = childCountAt s.tree s.path := by
            rw [childCountAt_eq hgt, hcnt]
            simp [length_setChild]
          refine ⟨{ s with tree := tr }, ?_, ?_, trivial⟩
          · simp only [step, hs, if_pos hi, hmt]
          · refine valid_update s tr _ _ ⟨hpath, hsel, hfr, hroot⟩ ?_ ?_
            · rw [hgt]
              rfl
            · rw [hcnt', hs, selOkB_some]
              exact hi
  | decrease =>
      cases hs : s.selection with
      | none =>
          refine ⟨s, ?_, ⟨hpath, hsel, hfr, hroot⟩, trivial⟩
          simp only [step, hs]
      | some i =>
          have hi : i < childCountAt s.tree s.path := by
            rw [hs] at hsel
            exact selOkB_some.mp hsel
          obtain ⟨tr, hmt, hgt⟩ := modifyAt_spec s.path s.tree
            (fun t => t.withChildren (setChild t.children i (fun c => c.mapPriority decPriority)))
            cur hcur
          have hcnt' : childCountAt tr s.path = childCountAt s.tree s.path := by
            rw [childCountAt_eq hgt, hcnt]
            simp [length_setChild]
          refine ⟨{ s with tree := tr }, ?_, ?_, trivial⟩
          · simp only [step, hs, if_pos hi, hmt]
          · refine valid_update s tr _ _ ⟨hpath, hsel, hfr, hroot⟩ ?_ ?_
            · rw [hgt]
              rfl
            · rw [hcnt', hs, selOkB_some]
              exact hi
  | sort =>
      obtain ⟨tr, hmt, hgt⟩ := modifyAt_spec s.path s.tree
        (fun t => t.withChildren (sortByOrd taskNodeCmp t.children)) cur hcur
      have hcnt' : childCountAt tr s.path = childCountAt s.tree s.path := by
        rw [childCountAt_eq hgt, hcnt]
        simp [(sortByOrd_perm taskNodeCmp cur.children).length_eq]
      refine ⟨{ s with tree := tr }, ?_, ?_, trivial⟩
      · simp only [step, hmt]
      · refine valid_update s tr _ _ ⟨hpath, hsel, hfr, hroot⟩ ?_ ?_
        · rw [hgt]
          rfl
        · rw [hcnt']
          exact hsel

/-- Witness for C10: a concrete valid state (root with one child,
selection 0), applying `add`. -/
theorem c10_navigation_invariant_witness :
    Valid (ViewSt.mk (TaskNode.mk 0 [] false none none [TaskNode.mk 1 ['a'] false none (some 0) []]) [] (some 0) true [] 2)
    ∧ ∃ s', step (.add ['b'])
          (ViewSt.mk (TaskNode.mk 0 [] false none none [TaskNode.mk 1 ['a'] false none (some 0) []]) [] (some 0) true [] 2)
        = some s'
      ∧ Valid s'
      ∧ stepClause (.add ['b'])
          (ViewSt.mk (TaskNode.mk 0 [] false none none [TaskNode.mk 1 ['a'] false none (some 0) []]) [] (some 0) true [] 2) s' :=
  ⟨⟨rfl, rfl, rfl, rfl⟩, c10_navigation_invariant _ _ ⟨rfl, rfl, rfl, rfl⟩⟩

/-- C5 (code bug): with an empty children list and a stale `Some` selection
the pre-render re-validation in `list_tasks` evaluates `sub_tasks.len() - 1`
on a `usize`, which panics in a debug build and wraps in release so that
the subsequent `sub_tasks[index]` indexing panics — not a reset-to-None;
and a command consuming an out-of-range selection (here `edit`) panics
instead of being a silent no-op.  The third conjunct shows the claimed
reset does happen when the list is non-empty. -/
theorem c5_out_of_range_selection :
    list_tasks_validate
        (ViewSt.mk (TaskNode.mk 0 [] false none none []) [] (some 0) true [] 1) = none
    ∧ step (.edit ['x'])
        (ViewSt.mk (TaskNode.mk 0 [] false none none []) [] (some 0) true [] 1) = none
    ∧ list_tasks_validate
        (ViewSt.mk (TaskNode.mk 0 [] false none none [TaskNode.mk 1 ['a'] false none (some 0) []]) [] (some 5) true [] 2)
      = some (ViewSt.mk (TaskNode.mk 0 [] false none none [TaskNode.mk 1 ['a'] false none (some 0) []]) [] none true [] 2) :=
  ⟨rfl, rfl, rfl⟩

/-- C8 (code bug): backspace with the cursor after a 2-column, 3-byte
character removes the whole character, moves the byte offset back by 3 and
both width counters by 2 (first conjunct, as the claim says); but with the
cursor at byte offset 0 of the non-empty entry `"ab"` the backward scan
does not run, the measured width is 0, and `String::remove(0)` deletes the
first character while offset and counters stay put — not the claimed
no-op (second conjunct). -/
theorem c8_backspace_start_not_noop :
    backspace (fun c => if c = 'あ' then 2 else 1)
        (Editor.mk ['a', 'あ'] 4 3 3)
      = Editor.mk ['a'] 1 1 1
    ∧ backspace (fun _ => 1) (Editor.mk ['a', 'b'] 0 0 2)
      = Editor.mk ['b'] 0 0 2 :=
  ⟨rfl, rfl⟩

/-! ## Support lemmas: decomposition, swap permutation, tree identities -/

theorem getElem?_decomp {α : Type _} {l : List α} {i : Nat} {a : α} (h : l[i]? = some a) :
    ∃ l₁ l₂, l = l₁ ++ a :: l₂ ∧ l₁.length = i := by
  induction l generalizing i with
  | nil => simp at h
  | cons x xs ih =>
      cases i with
      | zero =>
          rw [List.getElem?_cons_zero] at h
          injection h with h
          subst h
          exact ⟨[], xs, rfl, rfl⟩
      | succ n =>
          rw [List.getElem?_cons_succ] at h
          obtain ⟨l₁, l₂, hl, hlen⟩ := ih h
          exact ⟨x :: l₁, l₂, by rw [hl]; rfl, by simp [hlen]⟩

theorem set_append_len {α : Type _} (l₁ : List α) (x y : α) (l₂ : List α) :
    (l₁ ++ x :: l₂).set l₁.length y = l₁ ++ y :: l₂ := by
  induction l₁ with
  | nil => rfl
  | cons z zs ih => simp [ih]

theorem eraseIdx_append_len {α : Type _} (l₁ : List α) (x : α) (l₂ : List α) :
    (l₁ ++ x :: l₂).eraseIdx l₁.length = l₁ ++ l₂ := by
  induction l₁ with
  | nil => rfl
  | cons z zs ih => simpa using ih

theorem listSwap_symm {α : Type _} (l : List α) (i j : Nat) :
    listSwap l i j = listSwap l j i := by
  unfold listSwap
  cases hi : l[i]? with
  | none => cases hj : l[j]? <;> rfl
  | some a =>
      cases hj : l[j]? with
      | none => rfl
      | some b =>
          dsimp only
          by_cases hij : i = j
          · subst hij
            rw [hi] at hj
            injection hj with hj
            subst hj
            rfl
          · exact (List.set_comm a b l fun h => hij h.symm).symm

theorem listSwap_perm_lt {α : Type _} {l : List α} {i j : Nat} (hij : i < j) :
    List.Perm (listSwap l i j) l := by
  unfold listSwap
  cases hi : l[i]? with
  | none => exact List.Perm.refl _
  | some a =>
      cases hj : l[j]? with
      | none => exact List.Perm.refl _
      | some b =>
          dsimp only
          obtain ⟨l₁, l₂, hl, hlen1⟩ := getElem?_decomp hi
          subst hl
          have hj' : l₂[j - l₁.length - 1]? = some b := by
            rw [List.getElem?_append_right (by omega)] at hj
            have he : j - l₁.length = (j - l₁.length - 1) + 1 := by omega
            rw [he, List.getElem?_cons_succ] at hj
            exact hj
          obtain ⟨l₃, l₄, hl2, hlen3⟩ := getElem?_decomp hj'
          subst hl2
          have e1 : (l₁ ++ a :: (l₃ ++ b :: l₄)).set i b = l₁ ++ b :: (l₃ ++ b :: l₄) := by
            rw [← hlen1, set_append_len]
          have e2 : (l₁ ++ b :: (l₃ ++ b :: l₄)).set j a = l₁ ++ b :: (l₃ ++ a :: l₄) := by
            have ha : l₁ ++ b :: (l₃ ++ b :: l₄) = (l₁ ++ b :: l₃) ++ b :: l₄ := by
              simp [List.append_assoc]
            rw [ha]
            have hj2 : j = (l₁ ++ b :: l₃).length := by
              simp only [List.length_append, List.length_cons]
              omega
            rw [hj2, set_append_len]
            simp [List.append_assoc]
          rw [e1, e2]
          apply List.Perm.append_left
          refine List.Perm.trans (List.Perm.cons b List.perm_middle) ?_
          refine List.Perm.trans (List.Perm.swap a b _) ?_
          exact List.Perm.cons a List.perm_middle.symm

theorem listSwap_self {α : Type _} (l : List α) (i : Nat) : listSwap l i i = l := by
  unfold listSwap
  cases hi : l[i]? with
  | none => rfl
  | some a =>
      dsimp only
      rw [List.set_set]
      obtain ⟨l₁, l₂, hl, hlen⟩ := getElem?_decomp hi
      subst hl
      rw [← hlen, set_append_len]

theorem listSwap_perm {α : Type _} (l : List α) (i j : Nat) :
    List.Perm (listSwap l i j) l := by
  rcases Nat.lt_trichotomy i j with h | h | h
  · exact listSwap_perm_lt h
  · subst h
    rw [listSwap_self]
  · rw [listSwap_symm]
    exact listSwap_perm_lt h

theorem idsOf_mk (i : Nat) (t : List Char) (c : Bool) (p : Option Priority)
    (q : Option Nat) (cs : List TaskNode) :
    idsOf (TaskNode.mk i t c p q cs) = i :: idsOfList cs := by
  simp [idsOf]

theorem idsOfList_nil : idsOfList [] = [] := by
  simp [idsOfList]

theorem idsOfList_cons (t : TaskNode) (ts : List TaskNode) :
    idsOfList (t :: ts) = idsOf t ++ idsOfList ts := by
  simp [idsOfList]

theorem idsOfList_append : ∀ a b : List TaskNode,
    idsOfList (a ++ b) = idsOfList a ++ idsOfList b := by
  intro a b
  induction a with
  | nil => simp [idsOfList]
  | cons t ts ih => simp [idsOfList_cons, ih, List.append_assoc]

theorem idsOfList_eq_flatten : ∀ l : List TaskNode,
    idsOfList l = (l.map idsOf).flatten := by
  intro l
  induction l with
  | nil => simp [idsOfList]
  | cons t ts ih => simp [idsOfList_cons, ih]

theorem idsOfList_perm {l l' : List TaskNode} (h : List.Perm l l') :
    List.Perm (idsOfList l) (idsOfList l') := by
  rw [idsOfList_eq_flatten, idsOfList_eq_flatten]
  exact (h.map idsOf).flatten

theorem parentOk_mk (e : Option Nat) (i : Nat) (t : List Char) (c : Bool)
    (p : Option Priority) (q : Option Nat) (cs : List TaskNode) :
    parentOk e (TaskNode.mk i t c p q cs) = ((q == e) && parentOkList (some i) cs) := by
  simp [parentOk]

theorem parentOkList_nil (e : Option Nat) : parentOkList e [] = true := by
  simp [parentOkList]

theorem parentOkList_cons (e : Option Nat) (t : TaskNode) (ts : List TaskNode) :
    parentOkList e (t :: ts) = (parentOk e t && parentOkList e ts) := by
  simp [parentOkList]

theorem parentOkList_mem {e : Option Nat} :
    ∀ {l : List TaskNode}, parentOkList e l = true → ∀ x ∈ l, parentOk e x = true := by
  intro l
  induction l with
  | nil => intro _ x hx; cases hx
  | cons t ts ih =>
      intro h x hx
      rw [parentOkList_cons, Bool.and_eq_true] at h
      rcases List.mem_cons.mp hx with rfl | hx'
      · exact h.1
      · exact ih h.2 x hx'

theorem parentOkList_set {e : Option Nat} {x : TaskNode} (hx : parentOk e x = true) :
    ∀ (l : List TaskNode) (i : Nat), parentOkList e l = true →
      parentOkList e (l.set i x) = true := by
  intro l
  induction l with
  | nil => intro i h; exact h
  | cons t ts ih =>
      intro i h
      rw [parentOkList_cons, Bool.and_eq_true] at h
      cases i with
      | zero => rw [List.set_cons_zero, parentOkList_cons, hx]; simpa using h.2
      | succ n =>
          rw [List.set_cons_succ, parentOkList_cons, h.1]
          simpa using ih n h.2

theorem parentOkList_eraseIdx {e : Option Nat} :
    ∀ (l : List TaskNode) (i : Nat), parentOkList e l = true →
      parentOkList e (l.eraseIdx i) = true := by
  intro l
  induction l with
  | nil => intro i h; exact h
  | cons t ts ih =>
      intro i h
      rw [parentOkList_cons, Bool.and_eq_true] at h
      cases i with
      | zero => exact h.2
      | succ n =>
          rw [List.eraseIdx_cons_succ, parentOkList_cons, h.1]
          simpa using ih n h.2

theorem parentOkList_append_iff {e : Option Nat} (a b : List TaskNode) :
    parentOkList e (a ++ b) = (parentOkList e a && parentOkList e b) := by
  induction a with
  | nil => simp [parentOkList_nil]
  | cons t ts ih => simp [parentOkList_cons, ih, Bool.and_assoc]

theorem allNodes_mk (i : Nat) (t : List Char) (c : Bool) (p : Option Priority)
    (q : Option Nat) (cs : List TaskNode) :
    allNodes (TaskNode.mk i t c p q cs) = TaskNode.mk i t c p q cs :: allNodesList cs := by
  simp [allNodes]

theorem mem_allNodesList {n : TaskNode} :
    ∀ {cs : List TaskNode}, n ∈ allNodesList cs ↔ ∃ c ∈ cs, n ∈ allNodes c := by
  intro cs
  induction cs with
  | nil =>
      constructor
      · intro h
        rw [show allNodesList [] = [] from by simp [allNodesList]] at h
        cases h
      · rintro ⟨c, hc, _⟩
        cases hc
  | cons t ts ih =>
      rw [show allNodesList (t :: ts) = allNodes t ++ allNodesList ts
          from by simp [allNodesList]]
      rw [List.mem_append, ih]
      constructor
      · rintro (h | ⟨c, hc, hn⟩)
        · exact ⟨t, List.mem_cons_self t ts, h⟩
        · exact ⟨c, List.mem_cons_of_mem t hc, hn⟩
      · rintro ⟨c, hc, hn⟩
        rcases List.mem_cons.mp hc with rfl | hc'
        · exact Or.inl hn
        · exact Or.inr ⟨c, hc', hn⟩

theorem self_mem_allNodes (t : TaskNode) : t ∈ allNodes t := by
  cases t
  rw [allNodes_mk]
  exact List.mem_cons_self _ _

theorem map_nid_sublist : ∀ cs : List TaskNode,
    List.Sublist (cs.map TaskNode.nid) (idsOfList cs) := by
  intro cs
  induction cs with
  | nil => simp [idsOfList_nil]
  | cons t ts ih =>
      rw [List.map_cons, idsOfList_cons]
      cases t with
      | mk i tx c p q kids =>
          rw [idsOf_mk]
          rw [show (TaskNode.mk i tx c p q kids).nid = i from rfl]
          rw [List.cons_append]
          exact List.Sublist.cons₂ i (ih.trans (List.sublist_append_right _ _))

theorem idsOf_sublist_of_mem {ck : TaskNode} :
    ∀ {cs : List TaskNode}, ck ∈ cs → List.Sublist (idsOf ck) (idsOfList cs) := by
  intro cs
  induction cs with
  | nil => intro h; cases h
  | cons t ts ih =>
      intro h
      rw [idsOfList_cons]
      rcases List.mem_cons.mp h with rfl | h'
      · exact List.sublist_append_left _ _
      · exact (ih h').trans (List.sublist_append_right _ _)

theorem perm_reassoc {α : Type _} (A B X Y : List α) :
    List.Perm ((A ++ (X ++ B)) ++ Y) ((A ++ B) ++ (X ++ Y)) := by
  have h1 : (A ++ (X ++ B)) ++ Y = A ++ (X ++ (B ++ Y)) := by
    simp [List.append_assoc]
  have h2 : (A ++ B) ++ (X ++ Y) = A ++ (B ++ (X ++ Y)) := by
    simp [List.append_assoc]
  rw [h1, h2]
  apply List.Perm.append_left
  have h3 : X ++ (B ++ Y) = (X ++ B) ++ Y := by
    rw [List.append_assoc]
  have h4 : B ++ (X ++ Y) = (B ++ X) ++ Y := by
    rw [List.append_assoc]
  rw [h3, h4]
  exact List.perm_append_comm.append_right Y

theorem modifyAt_cons_inv {t t' : TaskNode} {i : Nat} {p : List Nat}
    {f : TaskNode → TaskNode} (hm : modifyAt t (i :: p) f = some t') :
    ∃ c c', t.children[i]? = some c ∧ modifyAt c p f = some c'
      ∧ t' = t.withChildren (t.children.set i c') := by
  simp only [modifyAt] at hm
  cases hc : t.children[i]? with
  | none => rw [hc] at hm; cases hm
  | some c =>
      rw [hc] at hm
      dsimp only at hm
      cases hc' : modifyAt c p f with
      | none => rw [hc'] at hm; cases hm
      | some c' =>
          rw [hc'] at hm
          dsimp only at hm
          injection hm with hm
          exact ⟨c, c', rfl, hc', hm.symm⟩

theorem modifyAt_ids_perm (f : TaskNode → TaskNode) :
    ∀ (p : List Nat) (t cur t' : TaskNode),
      getAt t p = some cur → modifyAt t p f = some t' →
      List.Perm (idsOf t' ++ idsOf cur) (idsOf t ++ idsOf (f cur)) := by
  intro p
  induction p with
  | nil =>
      intro t cur t' hg hm
      rw [getAt_nil] at hg
      injection hg with hg
      rw [show modifyAt t [] f = some (f t) from rfl] at hm
      injection hm with hm
      subst hg
      subst hm
      exact List.perm_append_comm
  | cons i p ih =>
      intro t cur t' hg hm
      obtain ⟨c, c', hc, hc', ht'⟩ := modifyAt_cons_inv hm
      rw [getAt_cons, hc] at hg
      have hperm := ih c cur c' hg hc'
      obtain ⟨l₁, l₂, hl, hlen⟩ := getElem?_decomp hc
      cases t with
      | mk nid tx cb pr q cs =>
          have hcs : cs = l₁ ++ c :: l₂ := hl
          have hset : cs.set i c' = l₁ ++ c' :: l₂ := by
            rw [hcs, ← hlen, set_append_len]
          subst ht'
          rw [show (TaskNode.mk nid tx cb pr q cs).withChildren
                ((TaskNode.mk nid tx cb pr q cs).children.set i c')
              = TaskNode.mk nid tx cb pr q (cs.set i c') from rfl]
          rw [hset, idsOf_mk, hcs, idsOf_mk]
          rw [idsOfList_append, idsOfList_cons, idsOfList_append, idsOfList_cons]
          rw [List.cons_append, List.cons_append]
          exact List.Perm.cons nid
            ((perm_reassoc _ _ _ _).trans
              ((List.Perm.append_left _ hperm).trans (perm_reassoc _ _ _ _).symm))

theorem modifyAt_parentOk {f : TaskNode → TaskNode}
    (hf : ∀ (u : TaskNode) (e : Option Nat), parentOk e u = true → parentOk e (f u) = true) :
    ∀ (p : List Nat) (t t' : TaskNode) (e : Option Nat),
      modifyAt t p f = some t' → parentOk e t = true → parentOk e t' = true := by
  intro p
  induction p with
  | nil =>
      intro t t' e hm hok
      rw [show modifyAt t [] f = some (f t) from rfl] at hm
      injection hm with hm
      subst hm
      exact hf t e hok
  | cons i p ih =>
      intro t t' e hm hok
      obtain ⟨c, c', hc, hc', ht'⟩ := modifyAt_cons_inv hm
      cases t with
      | mk nid tx cb pr q cs =>
          subst ht'
          rw [show (TaskNode.mk nid tx cb pr q cs).withChildren
                ((TaskNode.mk nid tx cb pr q cs).children.set i c')
              = TaskNode.mk nid tx cb pr q (cs.set i c') from rfl]
          rw [parentOk_mk] at hok ⊢
          rw [Bool.and_eq_true] at hok
          rw [Bool.and_eq_true]
          refine ⟨hok.1, ?_⟩
          have hcok : parentOk (some nid) c = true :=
            parentOkList_mem hok.2 c (List.getElem?_mem hc)
          exact parentOkList_set (ih c c' (some nid) hc' hcok) cs i hok.2

theorem parentOk_parentId {e : Option Nat} {t : TaskNode} (h : parentOk e t = true) :
    t.parentId = e := by
  cases t with
  | mk i tx c p q cs =>
      rw [parentOk_mk, Bool.and_eq_true] at h
      have h1 := h.1
      simp only [beq_iff_eq] at h1
      exact h1

theorem biCons_aux :
    ∀ (t : TaskNode) (e : Option Nat), (idsOf t).Nodup → parentOk e t = true →
      ∀ n ∈ allNodes t, n = t ∨ (∀ pid, n.parentId = some pid →
        ∃ p ∈ allNodes t, p.nid = pid
          ∧ (p.children.map TaskNode.nid).count n.nid = 1
          ∧ n ∈ p.children) := by
  have key : ∀ (N : Nat) (t : TaskNode), sizeOf t ≤ N → ∀ (e : Option Nat),
      (idsOf t).Nodup → parentOk e t = true →
      ∀ n ∈ allNodes t, n = t ∨ (∀ pid, n.parentId = some pid →
        ∃ p ∈ allNodes t, p.nid = pid
          ∧ (p.children.map TaskNode.nid).count n.nid = 1
          ∧ n ∈ p.children) := by
    intro N
    induction N with
    | zero =>
        intro t ht
        cases t with
        | mk i tx cb pr q cs => simp [TaskNode.mk.sizeOf_spec] at ht
    | succ N ihN =>
        intro t ht e hnd hok n hn
        cases t with
        | mk i tx cb pr q cs =>
            rw [allNodes_mk] at hn
            rcases List.mem_cons.mp hn with rfl | hn'
            · exact Or.inl rfl
            · obtain ⟨ck, hck, hnck⟩ := mem_allNodesList.mp hn'
              have hcsnd : (idsOfList cs).Nodup := by
                rw [idsOf_mk] at hnd
                exact hnd.of_cons
              have hsz : sizeOf ck ≤ N := by
                have h1 : sizeOf ck < sizeOf cs := List.sizeOf_lt_of_mem hck
                have h2 : sizeOf cs < sizeOf (TaskNode.mk i tx cb pr q cs) := by
                  simp [TaskNode.mk.sizeOf_spec]
                omega
              have hnd' : (idsOf ck).Nodup :=
                List.Sublist.nodup (idsOf_sublist_of_mem hck) hcsnd
              have hok' : parentOk (some i) ck = true := by
                rw [parentOk_mk, Bool.and_eq_true] at hok
                exact parentOkList_mem hok.2 ck hck
              rcases ihN ck hsz (some i) hnd' hok' n hnck with rfl | hw
              · right
                intro pid hpid
                rw [parentOk_parentId hok'] at hpid
                injection hpid with hpid
                refine ⟨TaskNode.mk i tx cb pr q cs, ?_, ?_, ?_, ?_⟩
                · rw [allNodes_mk]
                  exact List.mem_cons_self _ _
                · rw [show (TaskNode.mk i tx cb pr q cs).nid = i from rfl]
                  exact hpid
                · rw [show (TaskNode.mk i tx cb pr q cs).children = cs from rfl]
                  have hmap : (cs.map TaskNode.nid).Nodup :=
                    List.Sublist.nodup (map_nid_sublist cs) hcsnd
                  exact List.count_eq_one_of_mem hmap
                    (List.mem_map_of_mem TaskNode.nid hck)
                · rw [show (TaskNode.mk i tx cb pr q cs).children = cs from rfl]
                  exact hck
              · right
                intro pid hpid
                obtain ⟨p, hp, hpnid, hpc, hnp⟩ := hw pid hpid
                refine ⟨p, ?_, hpnid, hpc, hnp⟩
                rw [allNodes_mk]
                exact List.mem_cons_of_mem _ (mem_allNodesList.mpr ⟨ck, hck, hp⟩)
  intro t
  exact key (sizeOf t) t (Nat.le_refl _)

theorem biCons_of_inv {t : TaskNode} (hnd : (idsOf t).Nodup)
    (hok : parentOk none t = true) : BiCons t := by
  unfold BiCons
  intro n hn pid hpid
  rcases biCons_aux t none hnd hok n hn with rfl | hw
  · rw [parentOk_parentId hok] at hpid
    cases hpid
  · exact hw pid hpid

theorem add_ids (nxt : Nat) (text : List Char) (cur : TaskNode) :
    idsOf (cur.withChildren
      (cur.children ++ [TaskNode.mk nxt text false none (some cur.nid) []]))
    = idsOf cur ++ [nxt] := by
  cases cur with
  | mk i tx cb pr q cs =>
      rw [show (TaskNode.mk i tx cb pr q cs).withChildren
            ((TaskNode.mk i tx cb pr q cs).children
              ++ [TaskNode.mk nxt text false none (some (TaskNode.mk i tx cb pr q cs).nid) []])
          = TaskNode.mk i tx cb pr q
              (cs ++ [TaskNode.mk nxt text false none (some i) []]) from rfl]
      rw [idsOf_mk, idsOf_mk, idsOfList_append]
      rw [show idsOfList [TaskNode.mk nxt text false none (some i) []] = [nxt] from by
        simp [idsOfList, idsOf]]
      rw [List.cons_append]

theorem add_parentOk (nxt : Nat) (text : List Char) :
    ∀ (u : TaskNode) (e : Option Nat), parentOk e u = true →
      parentOk e (u.withChildren
        (u.children ++ [TaskNode.mk nxt text false none (some u.nid) []])) = true := by
  intro u e h
  cases u with
  | mk i tx cb pr q cs =>
      rw [show (TaskNode.mk i tx cb pr q cs).withChildren
            ((TaskNode.mk i tx cb pr q cs).children
              ++ [TaskNode.mk nxt text false none (some (TaskNode.mk i tx cb pr q cs).nid) []])
          = TaskNode.mk i tx cb pr q
              (cs ++ [TaskNode.mk nxt text false none (some i) []]) from rfl]
      rw [parentOk_mk] at h
      rw [parentOk_mk, Bool.and_eq_true]
      rw [Bool.and_eq_true] at h
      refine ⟨h.1, ?_⟩
      rw [parentOkList_append_iff, Bool.and_eq_true]
      refine ⟨h.2, ?_⟩
      rw [parentOkList_cons, parentOk_mk]
      simp [parentOkList_nil]

theorem swap_ids_perm (a b : Nat) (cur : TaskNode) :
    List.Perm (idsOf (cur.withChildren (listSwap cur.children a b))) (idsOf cur) := by
  cases cur with
  | mk i tx cb pr q cs =>
      rw [show (TaskNode.mk i tx cb pr q cs).withChildren
            (listSwap (TaskNode.mk i tx cb pr q cs).children a b)
          = TaskNode.mk i tx cb pr q (listSwap cs a b) from rfl]
      rw [idsOf_mk, idsOf_mk]
      exact List.Perm.cons i (idsOfList_perm (listSwap_perm cs a b))

theorem swap_parentOk (a b : Nat) :
    ∀ (u : TaskNode) (e : Option Nat), parentOk e u = true →
      parentOk e (u.withChildren (listSwap u.children a b)) = true := by
  intro u e h
  cases u with
  | mk i tx cb pr q cs =>
      rw [show (TaskNode.mk i tx cb pr q cs).withChildren
            (listSwap (TaskNode.mk i tx cb pr q cs).children a b)
          = TaskNode.mk i tx cb pr q (listSwap cs a b) from rfl]
      rw [parentOk_mk] at h
      rw [parentOk_mk, Bool.and_eq_true]
      rw [Bool.and_eq_true] at h
      refine ⟨h.1, ?_⟩
      unfold listSwap
      cases ha : cs[a]? with
      | none =>
          dsimp only
          exact h.2
      | some x =>
          cases hb : cs[b]? with
          | none =>
              dsimp only
              exact h.2
          | some y =>
              dsimp only
              exact parentOkList_set
                (parentOkList_mem h.2 x (List.getElem?_mem ha)) (cs.set a y) b
                (parentOkList_set
                  (parentOkList_mem h.2 y (List.getElem?_mem hb)) cs a h.2)

theorem erase_ids (idx : Nat) (cur ci : TaskNode) (h : cur.children[idx]? = some ci) :
    List.Perm (idsOf cur)
      (idsOf (cur.withChildren (cur.children.eraseIdx idx)) ++ idsOf ci) := by
  cases cur with
  | mk i tx cb pr q cs =>
      obtain ⟨l₁, l₂, hl, hlen⟩ := getElem?_decomp h
      have hcs : cs = l₁ ++ ci :: l₂ := hl
      have her : cs.eraseIdx idx = l₁ ++ l₂ := by
        rw [hcs, ← hlen, eraseIdx_append_len]
      rw [show (TaskNode.mk i tx cb pr q cs).withChildren
            ((TaskNode.mk i tx cb pr q cs).children.eraseIdx idx)
          = TaskNode.mk i tx cb pr q (cs.eraseIdx idx) from rfl]
      rw [her, hcs, idsOf_mk, idsOf_mk]
      rw [idsOfList_append, idsOfList_cons, idsOfList_append]
      rw [List.cons_append]
      refine List.Perm.cons i ?_
      rw [List.append_assoc (idsOfList l₁) (idsOfList l₂) (idsOf ci)]
      exact List.Perm.append_left _ List.perm_append_comm

theorem erase_parentOk (idx : Nat) :
    ∀ (u : TaskNode) (e : Option Nat), parentOk e u = true →
      parentOk e (u.withChildren (u.children.eraseIdx idx)) = true := by
  intro u e h
  cases u with
  | mk i tx cb pr q cs =>
      rw [show (TaskNode.mk i tx cb pr q cs).withChildren
            ((TaskNode.mk i tx cb pr q cs).children.eraseIdx idx)
          = TaskNode.mk i tx cb pr q (cs.eraseIdx idx) from rfl]
      rw [parentOk_mk] at h
      rw [parentOk_mk, Bool.and_eq_true]
      rw [Bool.and_eq_true] at h
      exact ⟨h.1, parentOkList_eraseIdx cs idx h.2⟩

theorem swap_treeInv {tree tr : TaskNode} {path : List Nat} {nxt : Nat}
    {cur : TaskNode} (a b : Nat)
    (hcur : getAt tree path = some cur)
    (hmt : modifyAt tree path
      (fun t => t.withChildren (listSwap t.children a b)) = some tr)
    (hnd : (idsOf tree).Nodup) (hok : parentOk none tree = true)
    (hlt : ∀ j ∈ idsOf tree, j < nxt) :
    (idsOf tr).Nodup ∧ parentOk none tr = true ∧ ∀ j ∈ idsOf tr, j < nxt := by
  have hperm := modifyAt_ids_perm _ path tree cur tr hcur hmt
  have hperm2 : List.Perm (idsOf tr ++ idsOf cur) (idsOf tree ++ idsOf cur) :=
    hperm.trans (List.Perm.append_left _ (swap_ids_perm a b cur))
  have hfin : List.Perm (idsOf tr) (idsOf tree) :=
    (List.perm_append_right_iff _).mp hperm2
  refine ⟨hfin.symm.nodup hnd, ?_, ?_⟩
  · exact modifyAt_parentOk (swap_parentOk a b) path tree tr none hmt hok
  · intro j hj
    exact hlt j (hfin.mem_iff.mp hj)

/-- C4: after every `add` (`add_task_from_input`), move (`move_task`, both
directions) and confirmed `delete` (`remove_task`) command run from a valid
state whose tree satisfies the identity invariant (distinct node ids,
correct parent back-references, ids below the allocation counter), the
command succeeds, the invariant still holds, and bidirectional parent/child
consistency holds for every non-root node of the resulting tree: the node
occurs exactly once (by identity) in its parent's children sequence, and
its parent reference resolves back to that same parent node. -/
theorem c4_parent_child_consistency :
    ∀ (c : Cmd) (s : ViewSt), Valid s → TreeInv s →
      ((∃ text, c = Cmd.add text) ∨ c = Cmd.taskUp ∨ c = Cmd.taskDown
        ∨ (∃ b, c = Cmd.delete b)) →
      ∃ s', step c s = some s' ∧ TreeInv s' ∧ BiCons s'.tree := by
  intro c s hv hinv hc
  obtain ⟨hpath, hsel, hfr, hroot⟩ := hv
  obtain ⟨hnd, hok, hlt⟩ := hinv
  obtain ⟨cur, hcur⟩ := Option.isSome_iff_exists.mp hpath
  have hcnt : childCountAt s.tree s.path = cur.children.length := childCountAt_eq hcur
  rcases hc with ⟨text, rfl⟩ | rfl | rfl | ⟨b, rfl⟩
  · -- add
    obtain ⟨tr, hmt, hgt⟩ := modifyAt_spec s.path s.tree
      (fun t => t.withChildren
        (t.children ++ [TaskNode.mk s.next text false none (some t.nid) []])) cur hcur
    refine ⟨{ s with tree := tr, selection := some (childCountAt s.tree s.path), next := s.next + 1 }, ?_, ?_, ?_⟩
    · simp only [step, hmt]
    · have hperm := modifyAt_ids_perm _ s.path s.tree cur tr hcur hmt
      rw [add_ids] at hperm
      have hre : List.Perm (idsOf s.tree ++ (idsOf cur ++ [s.next]))
          ((idsOf s.tree ++ [s.next]) ++ idsOf cur) := by
        rw [List.append_assoc]
        exact List.Perm.append_left _ List.perm_append_comm
      have hfin : List.Perm (idsOf tr) (idsOf s.tree ++ [s.next]) :=
        (List.perm_append_right_iff _).mp (hperm.trans hre)
      have hbig : (idsOf s.tree ++ [s.next]).Nodup := by
        rw [List.nodup_append]
        refine ⟨hnd, List.nodup_singleton _, ?_⟩
        intro a ha hmem
        rw [List.mem_singleton] at hmem
        subst hmem
        exact absurd (hlt _ ha) (lt_irrefl _)
      have hnd' : (idsOf tr).Nodup := hfin.symm.nodup hbig
      have hok' : parentOk none tr = true :=
        modifyAt_parentOk (add_parentOk s.next text) s.path s.tree tr none hmt hok
      refine ⟨hnd', hok', ?_⟩
      intro j hj
      show j < s.next + 1
      rcases List.mem_append.mp (hfin.mem_iff.mp hj) with h | h
      · exact Nat.lt_succ_of_lt (hlt j h)
      · rw [List.mem_singleton] at h
        omega
    · -- BiCons from the preserved invariant (recompute the two components)
      have hperm := modifyAt_ids_perm _ s.path s.tree cur tr hcur hmt
      rw [add_ids] at hperm
      have hre : List.Perm (idsOf s.tree ++ (idsOf cur ++ [s.next]))
          ((idsOf s.tree ++ [s.next]) ++ idsOf cur) := by
        rw [List.append_assoc]
        exact List.Perm.append_left _ List.perm_append_comm
      have hfin : List.Perm (idsOf tr) (idsOf s.tree ++ [s.next]) :=
        (List.perm_append_right_iff _).mp (hperm.trans hre)
      have hbig : (idsOf s.tree ++ [s.next]).Nodup := by
        rw [List.nodup_append]
        refine ⟨hnd, List.nodup_singleton _, ?_⟩
        intro a ha hmem
        rw [List.mem_singleton] at hmem
        subst hmem
        exact absurd (hlt _ ha) (lt_irrefl _)
      exact biCons_of_inv (hfin.symm.nodup hbig)
        (modifyAt_parentOk (add_parentOk s.next text) s.path s.tree tr none hmt hok)
  · -- taskUp
    cases hs : s.selection with
    | none =>
        exact ⟨s, by simp only [step, hs], ⟨hnd, hok, hlt⟩, biCons_of_inv hnd hok⟩
    | some i =>
        have hi : i < childCountAt s.tree s.path := by
          rw [hs] at hsel
          exact selOkB_some.mp hsel
        have hn0 : ¬ (childCountAt s.tree s.path = 0 ∨ childCountAt s.tree s.path ≤ i) := by
          omega
        obtain ⟨tr, hmt, hgt⟩ := modifyAt_spec s.path s.tree
          (fun t => t.withChildren
            (listSwap t.children (if i = 0 then childCountAt s.tree s.path - 1 else i - 1) i))
          cur hcur
        obtain ⟨hnd', hok', hlt'⟩ := swap_treeInv
          (if i = 0 then childCountAt s.tree s.path - 1 else i - 1) i hcur hmt hnd hok hlt
        refine ⟨{ s with tree := tr, selection := some (if i = 0 then childCountAt s.tree s.path - 1 else i - 1) }, ?_, ⟨hnd', hok', hlt'⟩, biCons_of_inv hnd' hok'⟩
        simp only [step, hs, if_neg hn0, hmt]
  · -- taskDown
    cases hs : s.selection with
    | none =>
        exact ⟨s, by simp only [step, hs], ⟨hnd, hok, hlt⟩, biCons_of_inv hnd hok⟩
    | some i =>
        have hi : i < childCountAt s.tree s.path := by
          rw [hs] at hsel
          exact selOkB_some.mp hsel
        have hn0 : ¬ (childCountAt s.tree s.path = 0 ∨ childCountAt s.tree s.path ≤ i) := by
          omega
        obtain ⟨tr, hmt, hgt⟩ := modifyAt_spec s.path s.tree
          (fun t => t.withChildren
            (listSwap t.children (if i = childCountAt s.tree s.path - 1 then 0 else i + 1) i))
          cur hcur
        obtain ⟨hnd', hok', hlt'⟩ := swap_treeInv
          (if i = childCountAt s.tree s.path - 1 then 0 else i + 1) i hcur hmt hnd hok hlt
        refine ⟨{ s with tree := tr, selection := some (if i = childCountAt s.tree s.path - 1 then 0 else i + 1) }, ?_, ⟨hnd', hok', hlt'⟩, biCons_of_inv hnd' hok'⟩
        simp only [step, hs, if_neg hn0, hmt]
  · -- delete
    cases hs : s.selection with
    | none =>
        exact ⟨s, by simp only [step, hs], ⟨hnd, hok, hlt⟩, biCons_of_inv hnd hok⟩
    | some i =>
        cases b with
        | false =>
            refine ⟨s, ?_, ⟨hnd, hok, hlt⟩, biCons_of_inv hnd hok⟩
            simp only [step, hs, if_neg (by simp : ¬ False = true)]
            rfl
        | true =>
            have hi : i < childCountAt s.tree s.path := by
              rw [hs] at hsel
              exact selOkB_some.mp hsel
            obtain ⟨ci, hci⟩ : ∃ ci, cur.children[i]? = some ci := by
              rw [List.getElem?_eq_getElem (by omega : i < cur.children.length)]
              exact ⟨_, rfl⟩
            obtain ⟨tr, hmt, hgt⟩ := modifyAt_spec s.path s.tree
              (fun t => t.withChildren (t.children.eraseIdx i)) cur hcur
            have hperm := modifyAt_ids_perm _ s.path s.tree cur tr hcur hmt
            have her := erase_ids i cur ci hci
            have h1 : List.Perm
                ((idsOf tr ++ idsOf ci)
                  ++ idsOf (cur.withChildren (cur.children.eraseIdx i)))
                (idsOf s.tree ++ idsOf (cur.withChildren (cur.children.eraseIdx i))) := by
              refine List.Perm.trans ?_ hperm
              rw [List.append_assoc]
              refine List.Perm.trans (List.Perm.append_left _ List.perm_append_comm) ?_
              exact List.Perm.append_left _ her.symm
            have hfin : List.Perm (idsOf tr ++ idsOf ci) (idsOf s.tree) :=
              (List.perm_append_right_iff _).mp h1
            have hnd' : (idsOf tr).Nodup :=
              List.Nodup.of_append_left (hfin.symm.nodup hnd)
            have hok' : parentOk none tr = true :=
              modifyAt_parentOk (erase_parentOk i) s.path s.tree tr none hmt hok
            have hlt' : ∀ j ∈ idsOf tr, j < s.next := fun j hj =>
              hlt j (hfin.mem_iff.mp (List.mem_append_left _ hj))
            refine ⟨{ s with tree := tr, selection := none }, ?_, ⟨hnd', hok', hlt'⟩, biCons_of_inv hnd' hok'⟩
            simp only [step, hs, if_pos hi, hmt]
            simp

/-- Witness for C4: a concrete valid state satisfying the tree-identity
invariant (root with one child), applying `add`. -/
theorem c4_parent_child_consistency_witness :
    TreeInv (ViewSt.mk (TaskNode.mk 0 [] false none none [TaskNode.mk 1 ['a'] false none (some 0) []]) [] (some 0) true [] 2)
    ∧ ∃ s', step (.add ['b'])
          (ViewSt.mk (TaskNode.mk 0 [] false none none [TaskNode.mk 1 ['a'] false none (some 0) []]) [] (some 0) true [] 2)
        = some s'
      ∧ TreeInv s' ∧ BiCons s'.tree := by
  have hti : TreeInv (ViewSt.mk (TaskNode.mk 0 [] false none none [TaskNode.mk 1 ['a'] false none (some 0) []]) [] (some 0) true [] 2) := by
    refine ⟨?_, ?_, ?_⟩
    · simp [idsOf, idsOfList]
    · simp [parentOk, parentOkList]
    · intro j hj
      simp [idsOf, idsOfList] at hj
      rcases hj with rfl | rfl <;> decide
  exact ⟨hti, c4_parent_child_consistency _ _ ⟨rfl, rfl, rfl, rfl⟩ hti
    (Or.inl ⟨['b'], rfl⟩)⟩

end Yat
